import Mathlib

/-!
Verification development for the littletree tree-structure engine.

The development shallowly embeds the core of the library in Lean:

* a value model of node objects (`PNode`/`PForest`, a rose tree carrying the
  node identifier) used for the traversal engine (`DownTree`/`Tree` in
  `littletree/tree.py`) and for the pure path/route computations
  (`littletree/route.py`, `littletree/nodepath.py`);
* a heap model (`Store`: object ids mapped to records with identifier,
  parent reference and an insertion-ordered child dictionary) used for the
  mutation engine of `littletree/basenode.py`, where Python object identity
  and in-place mutation matter.

Loops of the source are embedded as fuel-indexed structural recursions
(each wrapper passes fuel that dominates the loop's iteration count, so the
embedded function computes the same list the Python generator produces);
fuel keeps every definition executable by the kernel.
-/

namespace LT

/-! ## Value model of nodes

A node as seen by the traversal code: its identifier and its ordered
children (the values view of `_cdict`, whose keys equal the child
identifiers on well-formed trees).  The mutual `PForest` type stands for
`List PNode`; it keeps all recursions structural. -/

mutual
inductive PNode : Type where
  | mk (ident : String) (kids : PForest)
  deriving DecidableEq, Repr
inductive PForest : Type where
  | nil
  | cons (head : PNode) (tail : PForest)
  deriving DecidableEq, Repr
end

def PNode.ident : PNode → String
  | .mk i _ => i

def PNode.kids : PNode → PForest
  | .mk _ ks => ks

instance : Inhabited PNode := ⟨.mk "node" .nil⟩

mutual
/-- Number of nodes of a tree (used as loop fuel for the traversal loops). -/
def sizeP : PNode → Nat
  | .mk _ ks => 1 + sizeF ks
def sizeF : PForest → Nat
  | .nil => 0
  | .cons k ks => sizeP k + sizeF ks
end

mutual
/-- All identifiers of a tree in preorder.  Distinctness of this list models
Python object identity (every object id is distinct). -/
def idents : PNode → List String
  | .mk i ks => i :: identsF ks
def identsF : PForest → List String
  | .nil => []
  | .cons k ks => idents k ++ identsF ks
end

/-- Child of a forest at an index, as `enumerate` addresses it. -/
def forestGet : PForest → Nat → Option PNode
  | .nil, _ => none
  | .cons k _, 0 => some k
  | .cons _ ks, n + 1 => forestGet ks n

def forestLen : PForest → Nat
  | .nil => 0
  | .cons _ ks => 1 + forestLen ks

/-- The ephemeral `NodeItem(index, depth)` namedtuple of `tree.py`. -/
structure NodeItem where
  index : Nat
  depth : Nat
  deriving DecidableEq, Repr

/-- Navigate from a node along a list of child indices (a position).  In the
value model, a position uniquely names the node object sitting there. -/
def posGet : PNode → List Nat → Option PNode
  | t, [] => some t
  | t, i :: p =>
    match forestGet t.kids i with
    | some c => posGet c p
    | none => none

/-- The root-to-node list of nodes at position `p` (each prefix's node). -/
def pathAt : PNode → List Nat → Option (List PNode)
  | t, [] => some [t]
  | t, i :: p =>
    match forestGet t.kids i with
    | some c => (pathAt c p).map (t :: ·)
    | none => none

/-- The `(child, NodeItem(index, depth))` pairs of `enumerate(children)`,
starting at index `idx`. -/
def enumItems (idx d : Nat) : PForest → List (PNode × NodeItem)
  | .nil => []
  | .cons k ks => (k, ⟨idx, d⟩) :: enumItems (idx + 1) d ks

/-! ## Traversal engine

Transcriptions of `DownTree._iter_descendants_pre`, `_iter_descendants_level`
(deque machines), `DownTree._iter_descendants_post` (the naive recursive
reference implementation) and `Tree._iter_descendants_post` (the iterative
stack machine).  The deque machines take fuel: one unit per popped entry,
and each pop removes at least one node from the queued subtrees, so fuel
equal to the total size of the queued subtrees is enough. -/

/-- Deque machine of `_iter_descendants_pre`: pop from the front, and push
the kept node's enumerated children to the front (`extendleft(reversed(...))`
keeps their order). -/
def preListF (keep : PNode → NodeItem → Bool) : Nat → List (PNode × NodeItem) → List (PNode × NodeItem)
  | 0, _ => []
  | _ + 1, [] => []
  | fuel + 1, (n, i) :: rest =>
    if keep n i then
      (n, i) :: preListF keep fuel (enumItems 0 (i.depth + 1) n.kids ++ rest)
    else
      preListF keep fuel rest

/-- Deque machine of `_iter_descendants_level`: pop from the front, append
the kept node's enumerated children at the back (`extend`). -/
def levelListF (keep : PNode → NodeItem → Bool) : Nat → List (PNode × NodeItem) → List (PNode × NodeItem)
  | 0, _ => []
  | _ + 1, [] => []
  | fuel + 1, (n, i) :: rest =>
    if keep n i then
      (n, i) :: levelListF keep fuel (rest ++ enumItems 0 (i.depth + 1) n.kids)
    else
      levelListF keep fuel rest

mutual
/-- Recursive reference implementation `DownTree._iter_descendants_post`:
for each enumerated child, if kept, yield its kept descendants (depth + 1)
and then the child itself. -/
def postRecD (keep : PNode → NodeItem → Bool) (d : Nat) : PNode → List (PNode × NodeItem)
  | .mk _ ks => postRecL keep d 0 ks
def postRecL (keep : PNode → NodeItem → Bool) (d idx : Nat) : PForest → List (PNode × NodeItem)
  | .nil => []
  | .cons c cs =>
    (if keep c ⟨idx, d⟩ then postRecD keep (d + 1) c ++ [(c, ⟨idx, d⟩)] else [])
      ++ postRecL keep d (idx + 1) cs
end

/-- Stack frame of `Tree._iter_descendants_post`: the source stores
`(item, sibling-iterator)` and recovers the frame's owner through
`node.parent`; on a well-formed tree that owner is exactly the node that was
current when the frame was pushed, so the frame records it explicitly. -/
abbrev Frame := PNode × NodeItem × List (PNode × NodeItem)

/-- Inner descent loop (`while keep_node and node.children`) of
`Tree._iter_descendants_post`: push a frame and step to the first child
until the current node is rejected or a leaf.  Descent depth is bounded by
the subtree size, which the callers pass as fuel. -/
def descendF (keep : PNode → NodeItem → Bool) :
    Nat → PNode → NodeItem → List (PNode × NodeItem) → List Frame →
    (PNode × NodeItem) × List (PNode × NodeItem) × List Frame
  | 0, n, i, rest, stack => ((n, i), rest, stack)
  | fuel + 1, n, i, rest, stack =>
    if keep n i then
      match enumItems 0 (i.depth + 1) n.kids with
      | [] => ((n, i), rest, stack)
      | c :: cs => descendF keep fuel c.1 c.2 cs ((n, i, rest) :: stack)
    else ((n, i), rest, stack)

/-- Ascent loop (`while node is None and stack`) of
`Tree._iter_descendants_post`: pop frames, yielding each frame's owner, until
a frame still holds a next sibling (the new current node) or the stack is
exhausted. -/
def upAll : List Frame → List (PNode × NodeItem) × Option (PNode × NodeItem × List (PNode × NodeItem) × List Frame)
  | [] => ([], none)
  | (p, ip, restp) :: s =>
    match restp with
    | (n2, i2) :: r2 => ([(p, ip)], some (n2, i2, r2, s))
    | [] =>
      match upAll s with
      | (es, c) => ((p, ip) :: es, c)

/-- Outer loop (`while node or stack`) of `Tree._iter_descendants_post`:
descend, emit the reached node if kept, then advance to the next sibling or
ascend.  One fuel unit per outer iteration; each iteration removes at least
one node from the pending state, so fuel `sizeP t` is enough for the whole
tree. -/
def iterLoopF (keep : PNode → NodeItem → Bool) :
    Nat → PNode → NodeItem → List (PNode × NodeItem) → List Frame → List (PNode × NodeItem)
  | 0, _, _, _, _ => []
  | fuel + 1, n, i, rest, stack =>
    match descendF keep (fuel + 1) n i rest stack with
    | ((d, di), rest', stack') =>
      let emitD := if keep d di then [(d, di)] else []
      match rest' with
      | (n2, i2) :: r2 => emitD ++ iterLoopF keep fuel n2 i2 r2 stack'
      | [] =>
        match upAll stack' with
        | (es, some (n2, i2, r2, s2)) => (emitD ++ es) ++ iterLoopF keep fuel n2 i2 r2 s2
        | (es, none) => emitD ++ es

/-- `Tree._iter_descendants_post` entry point: enumerate the children at
depth 1, start the machine on the first, empty output when childless. -/
def itDescPost (t : PNode) (keep : PNode → NodeItem → Bool) : List (PNode × NodeItem) :=
  match enumItems 0 1 t.kids with
  | [] => []
  | (n, i) :: rest => iterLoopF keep (sizeP t) n i rest []

/-- `DownTree._iter_descendants_pre` on a node: queue its children at depth 1. -/
def itDescPre (t : PNode) (keep : PNode → NodeItem → Bool) : List (PNode × NodeItem) :=
  preListF keep (sizeF t.kids) (enumItems 0 1 t.kids)

/-- `DownTree._iter_descendants_level` on a node: queue its children at depth 1. -/
def itDescLevel (t : PNode) (keep : PNode → NodeItem → Bool) : List (PNode × NodeItem) :=
  levelListF keep (sizeF t.kids) (enumItems 0 1 t.kids)

/-- The three traversal orders accepted by `iter_tree`/`iter_descendants`
(the strings "pre", "post" and "level"; any other string raises). -/
inductive TOrder where
  | pre
  | post
  | level
  deriving DecidableEq, Repr

/-- `iter_descendants(keep, order, with_item=True)` dispatch. -/
def iterDescO : TOrder → PNode → (PNode → NodeItem → Bool) → List (PNode × NodeItem)
  | .pre, t, keep => itDescPre t keep
  | .post, t, keep => itDescPost t keep
  | .level, t, keep => itDescLevel t keep

/-- `iter_tree(keep, order, with_item=True)`: test the call root once with
`NodeItem(0, 0)`; if kept, yield it before (pre/level) or after (post) its
kept descendants; if rejected, yield nothing. -/
def iterTreeO (ord : TOrder) (t : PNode) (keep : PNode → NodeItem → Bool) : List (PNode × NodeItem) :=
  if keep t ⟨0, 0⟩ then
    match ord with
    | .post => iterDescO .post t keep ++ [(t, ⟨0, 0⟩)]
    | .pre => (t, ⟨0, 0⟩) :: iterDescO .pre t keep
    | .level => (t, ⟨0, 0⟩) :: iterDescO .level t keep
  else []

/-! ## Specification layer for the postorder machine

Denotation of the pending work of `Tree._iter_descendants_post`: what the
recursive reference implementation would still emit for the current node,
the remaining siblings, and the stacked frames.  `sizeItems`/`sizeFrames`
measure the pending state to justify the loop fuel. -/

/-- Postorder contribution of one `(node, item)` queue entry: if kept, its
kept descendants then the entry itself. -/
def procOne (keep : PNode → NodeItem → Bool) (e : PNode × NodeItem) : List (PNode × NodeItem) :=
  if keep e.1 e.2 then postRecD keep (e.2.depth + 1) e.1 ++ [e] else []

/-- Postorder contribution of a sibling list. -/
def procL (keep : PNode → NodeItem → Bool) : List (PNode × NodeItem) → List (PNode × NodeItem)
  | [] => []
  | e :: l => procOne keep e ++ procL keep l

/-- Postorder contribution of the frame stack: each frame's owner (already
accepted by `keep` when it was descended into) followed by its remaining
siblings. -/
def flattenStack (keep : PNode → NodeItem → Bool) : List Frame → List (PNode × NodeItem)
  | [] => []
  | (p, ip, restp) :: s => (p, ip) :: (procL keep restp ++ flattenStack keep s)

/-- Total node count of the subtrees queued in a sibling list. -/
def sizeItems : List (PNode × NodeItem) → Nat
  | [] => 0
  | e :: l => sizeP e.1 + sizeItems l

/-- Total node count of the subtrees queued in the stacked frames. -/
def sizeFrames : List Frame → Nat
  | [] => 0
  | (_, _, r) :: s => sizeItems r + sizeFrames s

/-! ## Kept-reachability (for the pruning property)

A traversal entry is produced only for a node whose whole chain of strict
ancestors below the call root was kept; `Reach keep n d m im` says that,
starting from the children of `n` (which sit at depth `d`), an all-kept
chain leads to the entry `(m, im)`. -/

inductive Reach (keep : PNode → NodeItem → Bool) : PNode → Nat → PNode → NodeItem → Prop where
  | here (n : PNode) (d idx : Nat) (c : PNode) :
      forestGet n.kids idx = some c → keep c ⟨idx, d⟩ = true →
      Reach keep n d c ⟨idx, d⟩
  | there (n : PNode) (d idx : Nat) (c m : PNode) (im : NodeItem) :
      forestGet n.kids idx = some c → keep c ⟨idx, d⟩ = true →
      Reach keep c (d + 1) m im → Reach keep n d m im

/-- Every node along the position `p` below `n` (children of `n` sitting at
depth `d`) is kept, with the items the traversals assign. -/
def KeptAlong (keep : PNode → NodeItem → Bool) : PNode → Nat → List Nat → Prop
  | _, _, [] => True
  | n, d, idx :: p =>
    ∃ c, forestGet n.kids idx = some c ∧ keep c ⟨idx, d⟩ = true ∧ KeptAlong keep c (d + 1) p

/-! ## Pure path and route computations

`Route` (`route.py`) and `NodePath.to` (`nodepath.py`) work on root-to-self
paths — indexable sequences of nodes — comparing elements with the node
class's `==`.  The computations are embedded generically in the element
type and the equality function, exactly as Python dispatches `==`
dynamically. -/

/-- Compare two sequences at one index (`seq1[i] == seq2[i]`); the callers
only evaluate it in bounds. -/
def idxEqB (eq : α → α → Bool) (s1 s2 : List α) (i : Nat) : Bool :=
  match s1.get? i, s2.get? i with
  | some a, some b => eq a b
  | _, _ => false

/-- Length of the longest common `eq`-prefix of two sequences.  This is also
exactly the `n_common` loop of `NodePath.to` (`while n_common < n_max and
s_path[n_common] == o_path[n_common]: n_common += 1`). -/
def lcp (eq : α → α → Bool) : List α → List α → Nat
  | a :: t1, b :: t2 => if eq a b then lcp eq t1 t2 + 1 else 0
  | _, _ => 0

/-- Binary-search loop of `Route._common` (`while upper - lower > 1`);
each iteration shrinks `upper - lower`, so that difference bounds the
iteration count and the wrapper passes it as fuel. -/
def commonLoopF (eq : α → α → Bool) (s1 s2 : List α) : Nat → Nat → Nat → Nat × Nat
  | 0, lo, up => (lo, up)
  | fuel + 1, lo, up =>
    if 1 < up - lo then
      let idx := lo + (up - lo + 1) / 2
      if idxEqB eq s1 s2 idx then commonLoopF eq s1 s2 fuel idx up
      else commonLoopF eq s1 s2 fuel lo idx
    else (lo, up)

/-- `Route._common` for two sequences: binary search on `[lower, upper]`
starting from `lower = 0`, `upper = min(len) - 1`, then the final test of
`seq[upper]` decides between `upper + 1` and `upper`. -/
def common (eq : α → α → Bool) (s1 s2 : List α) : Nat :=
  let up := min s1.length s2.length - 1
  let up1 := (commonLoopF eq s1 s2 (up + 1) 0 up).2
  if idxEqB eq s1 s2 up1 then up1 + 1 else up1

/-- `Route.lca` for a two-node route: `paths[0][self._common(*paths) - 1]`. -/
def routeLca (eq : α → α → Bool) (s1 s2 : List α) : Option α :=
  s1.get? (common eq s1 s2 - 1)

/-- `Route.count_edges` for a two-node route:
`len(p1) + len(p2) - 2 * common(p1, p2)`. -/
def countEdgesPair (eq : α → α → Bool) (s1 s2 : List α) : Nat :=
  s1.length + s2.length - 2 * common eq s1 s2

/-- `Route.count_nodes` (also `Route.__len__`): edges + 1. -/
def countNodesPair (eq : α → α → Bool) (s1 s2 : List α) : Nat :=
  countEdgesPair eq s1 s2 + 1

/-- Descending phase of `Route.iter_nodes` for the first pair
(`while i >= len(p2) or p1[i] != p2[i]: yield p1[i]; i -= 1`), returning
the yields and the final index.  The loop counts `i` down; once `i` reaches
0 on a route whose roots compared equal the condition is false, so the
index never leaves `Nat` range (on unchecked routes Python would continue
into negative indices; that corner is unreachable here). -/
def routeDown [Inhabited α] (eq : α → α → Bool) (p1 p2 : List α) : Nat → List α × Nat
  | 0 =>
    if p2.length ≤ 0 ∨ ¬idxEqB eq p1 p2 0 then ([p1.getD 0 default], 0) else ([], 0)
  | i + 1 =>
    if p2.length ≤ i + 1 ∨ ¬idxEqB eq p1 p2 (i + 1) then
      match routeDown eq p1 p2 i with
      | (ys, st) => (p1.getD (i + 1) default :: ys, st)
    else ([], i + 1)

/-- `Route.iter_nodes` for a two-node route (single pair, `skip` false):
start at `i = len(p1) - 1`, walk down path 1 until the paths agree, then
walk up path 2 (`while i < len(p2): yield p2[i]; i += 1`). -/
def iterNodesPair [Inhabited α] (eq : α → α → Bool) (p1 p2 : List α) : List α :=
  let i0 := p1.length - 1
  if i0 < p1.length then
    match routeDown eq p1 p2 i0 with
    | (down, st) => down ++ p2.drop st
  else p2.drop i0

/-- Head-of-path comparison `root == other_path[0]` used by `Route.__init__`. -/
def headEq (eq : α → α → Bool) (p q : List α) : Bool :=
  match p.head?, q.head? with
  | some a, some b => eq a b
  | _, _ => false

/-- The `check_tree` validation of `Route.__init__`: compare the first (root)
element of the first path with the first element of every other path;
`true` means no `DifferentTreeError` is raised. -/
def routeCheckOk (eq : α → α → Bool) : List (List α) → Bool
  | [] => true
  | p :: ps => ps.all fun q => headEq eq p q

/-- `NodePath.to` returns `None` exactly when the linear common-prefix scan
stops at 0 (the `if n_common:` guard falls through). -/
def toResultIsNone (eq : α → α → Bool) (s o : List α) : Bool :=
  lcp eq s o == 0

/-! ## Node equality of the two node classes

`Node.__eq__` (`node.py`) compares `(identifier, data, _cdict)`; the child
dict comparison is key-set equality plus per-key recursive `==` (data is
payload only and omitted here).  `BaseNode.__eq__` (`basenode.py`) compares
only the child key sets along `iter_together`, ignoring every identifier of
the compared roots themselves; it is modelled on the heap below.  Both are
embedded with fuel (the recursion depth is bounded by the tree height). -/

/-- First child of a forest with the given identifier (dict lookup on the
values view keyed by child identifiers). -/
def forestFind : PForest → String → Option PNode
  | .nil, _ => none
  | .cons k ks, i => if k.ident == i then some k else forestFind ks i

def forestAll (p : PNode → Bool) : PForest → Bool
  | .nil => true
  | .cons k ks => p k && forestAll p ks

/-- `Node.__eq__` (payload omitted): identifiers equal and child dicts equal
as identifier-keyed dicts — same key sets, recursively equal values. -/
def pnodeEqF : Nat → PNode → PNode → Bool
  | 0, _, _ => false
  | fuel + 1, n, m =>
    n.ident == m.ident
      && forestAll (fun c =>
            match forestFind m.kids c.ident with
            | some w => pnodeEqF fuel c w
            | none => false) n.kids
      && forestAll (fun c => (forestFind n.kids c.ident).isSome) m.kids

/-! ## Heap model of the mutation engine

`BaseNode` objects are mutable and aliased, so the mutation operations of
`basenode.py` are embedded over an explicit store: object ids (`Nat`)
mapped to records holding `_identifier`, `_parent` and `_cdict` (an
insertion-ordered association list, like a Python dict).  `Store.next` is
the next unused object id, for allocation. -/

/-- View of `Except` as a sum, to decide equalities of operation results. -/
def exceptToSum : Except ε α → Sum ε α
  | .error e => .inl e
  | .ok a => .inr a

instance {ε α : Type} [DecidableEq ε] [DecidableEq α] : DecidableEq (Except ε α) :=
  fun x y =>
    decidable_of_iff (exceptToSum x = exceptToSum y)
      (by cases x <;> cases y <;> simp [exceptToSum])

/-- The checked structural errors of `exceptions.py` (`keyError` stands for
Python's built-in KeyError/ValueError/TypeError escapes). -/
inductive LtErr where
  | duplicateParent
  | duplicateChild
  | loopError
  | differentTree
  | valueError
  | keyError
  deriving DecidableEq, Repr

/-- One `BaseNode` object: `_identifier`, `_parent`, `_cdict`. -/
structure NodeRec where
  ident : String
  parent : Option Nat
  kids : List (String × Nat)
  deriving DecidableEq, Repr

structure Store where
  recs : List (Nat × NodeRec)
  next : Nat
  deriving DecidableEq, Repr

/-- Association-list lookup (first match). -/
def aget : List (Nat × NodeRec) → Nat → Option NodeRec
  | [], _ => none
  | (k, v) :: t, x => if k = x then some v else aget t x

/-- Apply `f` to the record stored under id `x` (ids are unique in any
store the operations build, mirroring one object per id). -/
def amodify : List (Nat × NodeRec) → Nat → (NodeRec → NodeRec) → List (Nat × NodeRec)
  | [], _, _ => []
  | (k, v) :: t, x, f =>
    if k = x then (k, f v) :: amodify t x f else (k, v) :: amodify t x f

/-- Dict lookup `_cdict.get(key)`. -/
def klookup : List (String × Nat) → String → Option Nat
  | [], _ => none
  | (k, v) :: t, x => if k = x then some v else klookup t x

/-- Dict assignment `_cdict[key] = v`: overwrite in place (keeping the key's
position) or append a new key, exactly like a Python dict. -/
def kset : List (String × Nat) → String → Nat → List (String × Nat)
  | [], x, v => [(x, v)]
  | (k, w) :: t, x, v => if k = x then (x, v) :: t else (k, w) :: kset t x v

/-- Dict deletion `del _cdict[key]`. -/
def kdel : List (String × Nat) → String → List (String × Nat)
  | [], _ => []
  | (k, w) :: t, x => if k = x then t else (k, w) :: kdel t x

def modifyRec (s : Store) (x : Nat) (f : NodeRec → NodeRec) : Store :=
  ⟨amodify s.recs x f, s.next⟩

def setIdent (s : Store) (x : Nat) (i : String) : Store :=
  modifyRec s x fun r => { r with ident := i }

def setParent (s : Store) (x : Nat) (p : Option Nat) : Store :=
  modifyRec s x fun r => { r with parent := p }

def setKid (s : Store) (t : Nat) (key : String) (c : Nat) : Store :=
  modifyRec s t fun r => { r with kids := kset r.kids key c }

def delKid (s : Store) (t : Nat) (key : String) : Store :=
  modifyRec s t fun r => { r with kids := kdel r.kids key }

/-- `iter_ancestors`: follow parent references; fuel bounds the walk (the
callers pass the store size, enough on any acyclic store; the walk is only
evaluated on concrete stores here). -/
def ancestorsF : Nat → Store → Nat → List Nat
  | 0, _, _ => []
  | fuel + 1, s, n =>
    match aget s.recs n with
    | none => []
    | some r =>
      match r.parent with
      | none => []
      | some p => p :: ancestorsF fuel s p

/-- `UpTree.root`: follow parent references to the top. -/
def rootFromF : Nat → Store → Nat → Nat
  | 0, _, n => n
  | fuel + 1, s, n =>
    match aget s.recs n with
    | none => n
    | some r =>
      match r.parent with
      | none => n
      | some p => rootFromF fuel s p

/-- The root-to-self node sequence `list(node.path)` (`iter_path`: the
reversed ancestors followed by the node itself; the concrete iterator lives
with the abstract tree mixins outside these modules, and is modelled from
the spec's "each node's root-to-self path"). -/
def pathIdsF (fuel : Nat) (s : Store) (n : Nat) : List Nat :=
  (ancestorsF fuel s n).reverse ++ [n]

/-- `BaseNode._check_loop1(other)`: only if `other` is not a leaf, raise
when `self is other` or `other` is an ancestor of `self`.  Returns `true`
when a `LoopError` would be raised. -/
def wouldLoop1 (s : Store) (self other : Nat) : Bool :=
  (match aget s.recs other with
   | some r => !r.kids.isEmpty
   | none => false)
    && (self == other || (ancestorsF s.recs.length s self).contains other)

/-- `BaseNode._check_loop2(others)`: collect `self` and its ancestors, and
return the first candidate that is one of them (`some` means `LoopError`). -/
def checkLoop2 (s : Store) (self : Nat) (cands : List Nat) : Option Nat :=
  let anc := self :: ancestorsF s.recs.length s self
  cands.find? fun c => anc.contains c

/-- `BaseNode.__setitem__(new_identifier, new_node)`. -/
def setItemOp (s : Store) (t : Nat) (newKey : String) (nid : Nat) : Except LtErr Store :=
  match aget s.recs t, aget s.recs nid with
  | some trec, some nrec =>
    let old := klookup trec.kids newKey
    if nrec.parent.isSome then
      -- a parented node may only be re-assigned to its own slot
      if old ≠ some nid then .error .duplicateParent else .ok s
    else if wouldLoop1 s t nid then .error .loopError
    else
      let s1 := match old with
        | some o => setParent s o none
        | none => s
      let s2 := setKid s1 t newKey nid
      let s3 := setIdent s2 nid newKey
      .ok (setParent s3 nid (some t))
  | _, _ => .error .keyError

/-- `BaseNode.detach()`: delete the parent's dict entry under the node's
identifier and clear the parent reference. -/
def detachOp (s : Store) (n : Nat) : Store :=
  match aget s.recs n with
  | none => s
  | some r =>
    match r.parent with
    | none => s
    | some p => setParent (delKid s p r.ident) n none

mutual
/-- `BaseNode.copy()` (via `transform`): allocate a fresh node with the
original's identifier and recursively copy the children in order, attaching
each copy under its identifier (`other[node._identifier] = f(node, item)`).
Fuel dominates the number of copied nodes. -/
def copyTreeF : Nat → Store → Nat → Store × Nat
  | 0, s, _ => (s, s.next)
  | fuel + 1, s, nid =>
    match aget s.recs nid with
    | none => (s, s.next)
    | some r =>
      let fresh := s.next
      let s1 : Store := ⟨s.recs ++ [(fresh, ⟨r.ident, none, []⟩)], s.next + 1⟩
      copyKidsF fuel s1 fresh r.kids
def copyKidsF : Nat → Store → Nat → List (String × Nat) → Store × Nat
  | 0, s, fresh, _ => (s, fresh)
  | _ + 1, s, fresh, [] => (s, fresh)
  | fuel + 1, s, fresh, (_, ck) :: rest =>
    match copyTreeF fuel s ck with
    | (s2, cc) =>
      let ckIdent := ((aget s2.recs cc).map (·.ident)).getD ""
      copyKidsF fuel (setParent (setKid s2 fresh ckIdent cc) cc (some fresh)) fresh rest
end

/-- `BaseNode._update(other)`: for each `(identifier, child)` pair set the
child's parent, detach any current occupant of the key, and store the child
under the key. -/
def lowUpdate (s : Store) (t : Nat) (other : List (String × Nat)) : Store :=
  other.foldl
    (fun s e =>
      let s1 := setParent s e.2 (some t)
      let old := klookup (((aget s1.recs t).map (·.kids)).getD []) e.1
      let s2 := match old with
        | some o => setParent s1 o none
        | none => s1
      setKid s2 t e.1 e.2)
    s

/-- One step of the copy-mode loop of `update`: if the node has a parent,
record a structural copy as the conflict resolution for this key; in either
case assign the mapping key as the node's `_identifier` (the source mutates
the original even when a copy was made). -/
def updCopyStep (st : Store × List (String × Nat)) (e : String × Nat) : Store × List (String × Nat) :=
  let s := st.1
  let hasParent := (((aget s.recs e.2).map (·.parent)).getD none).isSome
  let (s1, confl) :=
    if hasParent then
      match copyTreeF s.recs.length s e.2 with
      | (s2, cid) => (s2, st.2 ++ [(e.1, cid)])
    else (s, st.2)
  (setIdent s1 e.2 e.1, confl)

/-- `BaseNode.update(other, mode, check_loop)` for a mapping source.
Cycle check first; in detach mode detach every value then `_update` with
the original mapping; in copy mode substitute copies for parented values
(`conflict_resolutions`) and `_update` with the patched mapping. -/
def updateMapOp (s : Store) (t : Nat) (mp : List (String × Nat)) (mode : String)
    (checkLoop : Bool) : Except LtErr Store :=
  if mode ≠ "copy" ∧ mode ≠ "detach" then .error .valueError
  else
    match (if checkLoop then checkLoop2 s t (mp.map (·.2)) else none) with
    | some _ => .error .loopError
    | none =>
      if mode = "detach" then
        let s1 := (mp.map (·.2)).foldl detachOp s
        .ok (lowUpdate s1 t mp)
      else
        match mp.foldl updCopyStep (s, []) with
        | (s1, confl) =>
          let other := mp.map fun e => (e.1, ((klookup confl e.1).getD e.2))
          .ok (lowUpdate s1 t other)

/-- `node[segment]` lookups chained over a segment list
(`NodePath.__call__`; `NodePath.get` maps the KeyError to `None`). -/
def getChild (s : Store) (n : Nat) (seg : String) : Option Nat :=
  (aget s.recs n).bind fun r => klookup r.kids seg

def getWalk : Store → Nat → List String → Option Nat
  | _, n, [] => some n
  | s, n, seg :: rest =>
    match getChild s n seg with
    | some c => getWalk s c rest
    | none => none

/-- `NodePath._create_node(identifier, parent)`: instantiate a default node
(`BaseNode()`), set its identifier, then run the `parent` setter — the
sibling-collision check, `_check_loop1` on the new parent (vacuous for the
fresh parentless node), and the attachment. -/
def createNodeOp (s : Store) (seg : String) (parentId : Nat) : Except LtErr (Store × Nat) :=
  let fresh := s.next
  let s1 : Store := ⟨s.recs ++ [(fresh, ⟨seg, none, []⟩)], s.next + 1⟩
  match aget s1.recs parentId with
  | none => .error .keyError
  | some prec =>
    if (klookup prec.kids seg).isSome then .error .duplicateChild
    else if wouldLoop1 s1 fresh parentId then .error .loopError
    else .ok (setParent (setKid s1 parentId seg fresh) fresh (some parentId), fresh)

/-- Creation phase of `NodePath.create`: after the first missing segment,
instantiate a node for it and every remaining segment. -/
def createRest : Store → Nat → List String → Except LtErr (Store × Nat)
  | s, n, [] => .ok (s, n)
  | s, n, seg :: rest =>
    match createNodeOp s seg n with
    | .error e => .error e
    | .ok (s1, c) => createRest s1 c rest

/-- `NodePath.create(path)`: walk existing children as far as possible, then
create the remainder. -/
def createOp : Store → Nat → List String → Except LtErr (Store × Nat)
  | s, n, [] => .ok (s, n)
  | s, n, seg :: rest =>
    match getChild s n seg with
    | some c => createOp s c rest
    | none => createRest s n (seg :: rest)

/-- `BaseNode.__eq__` over the store: identity fast path, then — along
`iter_together` — equality of the child key sets at every paired node
(identifiers of the compared nodes themselves are ignored).  The recursive
form compares key sets and recurses through matching keys, which agrees
with the source's preorder `all(...)` scan. -/
def shapeEqF : Nat → Store → Nat → Nat → Bool
  | 0, _, _, _ => false
  | fuel + 1, s, a, b =>
    a == b
      || match aget s.recs a, aget s.recs b with
         | some ra, some rb =>
           ra.kids.all (fun e => (klookup rb.kids e.1).isSome)
             && rb.kids.all (fun e => (klookup ra.kids e.1).isSome)
             && ra.kids.all (fun e =>
                  match klookup rb.kids e.1 with
                  | some cb => shapeEqF fuel s e.2 cb
                  | none => false)
         | _, _ => false

/-- Invariant I1 as an executable check (`_check_integrity`): every node
with a parent is filed in its parent's child dict under its own identifier. -/
def checkI1 (s : Store) : Bool :=
  s.recs.all fun e =>
    match e.2.parent with
    | none => true
    | some p =>
      match aget s.recs p with
      | none => false
      | some pr => klookup pr.kids e.2.ident == some e.1

/-- Well-formed store: one record per object id, and every id below the
allocation counter (Python guarantees both for real object stores). -/
def StoreWF (s : Store) : Prop :=
  (s.recs.map Prod.fst).Nodup ∧ ∀ e ∈ s.recs, e.1 < s.next

instance (s : Store) : Decidable (StoreWF s) := by
  unfold StoreWF; infer_instance

/-! ## Concrete scenarios

The end-to-end tree `world → {Europe → {Norway → Oslo, Sweden → Stockholm},
Africa}` of the spec (value model), and the small stores used to evaluate
the mutation operations at concrete inputs (heap model). -/

def oslo : PNode := .mk "Oslo" .nil
def stockholm : PNode := .mk "Stockholm" .nil
def norway : PNode := .mk "Norway" (.cons oslo .nil)
def sweden : PNode := .mk "Sweden" (.cons stockholm .nil)
def europe : PNode := .mk "Europe" (.cons norway (.cons sweden .nil))
def africa : PNode := .mk "Africa" .nil
def world : PNode := .mk "world" (.cons europe (.cons africa .nil))

/-- The keep predicate `lambda node, item: item.depth < 3` of the scenario. -/
def keepDepthLt3 : PNode → NodeItem → Bool := fun _ it => it.depth < 3

/-- Root-to-self path of Oslo in the world tree. -/
def pathOslo : List PNode := [world, europe, norway, oslo]

/-- Root-to-self path of Africa in the world tree. -/
def pathAfrica : List PNode := [world, africa]

/-- Store for the `update(mapping, mode="detach")` evaluation: a root `r`
and a standalone node with identifier `j`. -/
def updDetachStore : Store := ⟨[(0, ⟨"r", none, []⟩), (1, ⟨"j", none, []⟩)], 2⟩

/-- Store for the `t["x"] = t` evaluation: one standalone leaf `t`. -/
def selfLoopStore : Store := ⟨[(0, ⟨"t", none, []⟩)], 1⟩

/-- Store for the `update(mapping, mode="copy")` evaluation: a root `r`,
a parent `p`, and its child with identifier `j`. -/
def updCopyStore : Store :=
  ⟨[(0, ⟨"r", none, []⟩), (2, ⟨"p", none, [("j", 1)]⟩), (1, ⟨"j", some 2, []⟩)], 3⟩

/-- Store for the `path.create` evaluations: a single standalone node `a`. -/
def createStore : Store := ⟨[(0, ⟨"a", none, []⟩)], 1⟩

/-- Store holding two distinct root objects whose trees are structurally
equal (two standalone leaves). -/
def twoRootsStore : Store := ⟨[(0, ⟨"a", none, []⟩), (1, ⟨"b", none, []⟩)], 2⟩

/-- Store with a root `r` owning a child `c` (for the redundant-assignment
no-op). -/
def noopStore : Store := ⟨[(0, ⟨"r", none, [("c", 1)]⟩), (1, ⟨"c", some 0, []⟩)], 2⟩

/-- Store after `A.path.create(["x", "y"])` on `createStore` (id 0 is `A`,
1 is `x`, 2 is `y`). -/
def createdXY : Store :=
  ⟨[(0, ⟨"a", none, [("x", 1)]⟩), (1, ⟨"x", some 0, [("y", 2)]⟩),
    (2, ⟨"y", some 1, []⟩)], 3⟩

/-- Store after the further `A.path.create(["x", "z"])` (id 3 is `z`). -/
def createdXYZ : Store :=
  ⟨[(0, ⟨"a", none, [("x", 1)]⟩), (1, ⟨"x", some 0, [("y", 2), ("z", 3)]⟩),
    (2, ⟨"y", some 1, []⟩), (3, ⟨"z", some 1, []⟩)], 4⟩

/-- Three-node chain `a → b → c` for exercising pruning (every identifier
distinct, mirroring distinct objects). -/
def wtC : PNode := .mk "c" .nil
def wtB : PNode := .mk "b" (.cons wtC .nil)
def wtA : PNode := .mk "a" (.cons wtB .nil)

/-- A keep predicate that rejects the middle node `b`. -/
def keepNotB : PNode → NodeItem → Bool := fun nd _ => nd.ident != "b"

/-- The nodes of the `A / x / {y, z}` scenario as values, for the
`Node.__eq__`-based route computation. -/
def ndY : PNode := .mk "y" .nil
def ndZ : PNode := .mk "z" .nil
def ndX : PNode := .mk "x" (.cons ndY (.cons ndZ .nil))
def ndA : PNode := .mk "a" (.cons ndX .nil)

/-! ## Theorems -/

/-- C1: the claim says that after any completed sequence of public mutation
operations every parented node is filed in its parent's child dict exactly
under its own identifier (invariant I1).  A single completed
`update({"k": n}, mode="detach")` from valid trees already violates it: the
detach branch never re-keys `n.identifier` to the mapping key, so `n` ends
under key `"k"` while `n.identifier` stays `"j"`.  The theorem evaluates
the embedded operation at that input: I1 holds before, the call completes
without error, and I1 fails after. -/
theorem update_detach_mapping_breaks_I1 :
    checkI1 updDetachStore = true ∧
    updateMapOp updDetachStore 0 [("k", 1)] "detach" true =
      .ok ⟨[(0, ⟨"r", none, [("k", 1)]⟩), (1, ⟨"j", some 0, []⟩)], 2⟩ ∧
    (updateMapOp updDetachStore 0 [("k", 1)] "detach" true).map checkI1 = .ok false := by
  decide

/-- C2: the claim says an attach whose target is the node itself or one of
its ancestors always raises `LoopError` and leaves the tree unchanged, so
no node ever becomes its own ancestor.  But `_check_loop1` short-circuits
whenever the attached node is a leaf, so `t["x"] = t` on a standalone leaf
`t` completes without any error and makes `t` its own parent — a cycle.
The theorem evaluates the embedded `__setitem__` at that input. -/
theorem setitem_self_leaf_creates_cycle :
    setItemOp selfLoopStore 0 "x" 0 =
      .ok ⟨[(0, ⟨"x", some 0, [("x", 0)]⟩)], 1⟩ ∧
    ((setItemOp selfLoopStore 0 "x" 0).map fun s => (aget s.recs 0).map (·.parent)) =
      .ok (some (some 0)) := by
  decide

/-- C3: the claim says `update(mapping, mode="copy")` leaves every already
parented source node (identifier, parent link, children) unchanged.  The
copy branch does substitute a copy, but it also assigns the mapping key to
the original node's `_identifier` (`node._identifier = identifier` runs on
the original even when a copy was made).  The theorem evaluates the
embedded update: the original child keeps its parent but its identifier
changes from "j" to "k". -/
theorem update_copy_mapping_mutates_original :
    (aget updCopyStore.recs 1).map (·.ident) = some "j" ∧
    updateMapOp updCopyStore 0 [("k", 1)] "copy" true =
      .ok ⟨[(0, ⟨"r", none, [("k", 3)]⟩), (2, ⟨"p", none, [("j", 1)]⟩),
            (1, ⟨"k", some 2, []⟩), (3, ⟨"j", some 0, []⟩)], 4⟩ ∧
    ((updateMapOp updCopyStore 0 [("k", 1)] "copy" true).map
        fun s => (aget s.recs 1).map (·.ident)) = .ok (some "k") := by
  decide

/-- C10: assigning an existing child to the slot it already occupies
(`t[i] = c` with `c.parent is t` and `t`'s dict mapping `i` to `c`) raises
nothing and leaves the store exactly as it was: the `old_node is not
new_node` test fails, so `__setitem__` falls through without touching
anything. -/
theorem setitem_existing_child_noop (s : Store) (t c : Nat) (i : String)
    (trec crec : NodeRec)
    (ht : aget s.recs t = some trec) (hc : aget s.recs c = some crec)
    (hparent : crec.parent = some t) (hkid : klookup trec.kids i = some c) :
    setItemOp s t i c = .ok s := by
  simp only [setItemOp, ht, hc, hparent, hkid]
  simp

/-- Witness for C10 at a concrete store: a root `r` with child `c`. -/
theorem setitem_existing_child_noop_witness :
    (aget noopStore.recs 0 = some ⟨"r", none, [("c", 1)]⟩ ∧
     aget noopStore.recs 1 = some ⟨"c", some 0, []⟩ ∧
     klookup [("c", 1)] "c" = some 1) ∧
    setItemOp noopStore 0 "c" 1 = .ok noopStore :=
  ⟨⟨by decide, by decide, by decide⟩,
   setitem_existing_child_noop noopStore 0 1 "c" ⟨"r", none, [("c", 1)]⟩
     ⟨"c", some 0, []⟩ (by decide) (by decide) (by decide) (by decide)⟩

/-- C6 counterexample: in the world scenario the claim asserts
`len(route(Oslo, Africa)) == 4`, but `Route.__len__` is `count_nodes`
(edges + 1) and the route has five nodes, so the stated length is wrong. -/
theorem route_len_world_not_four :
    ¬ countNodesPair (pnodeEqF 9) pathOslo pathAfrica = 4 := by
  decide

/-- C6 amended: in the world scenario the route from Oslo to Africa visits
exactly Oslo, Norway, Europe, world, Africa in that order; `len(route)`
(`count_nodes`) equals 5 while `count_edges` equals 4; and level-order
`iter_tree` with `keep = depth < 3` yields exactly world, Europe, Africa,
Norway, Sweden.  The two path lists are the actual root-to-node paths of
the tree. -/
theorem world_scenario_amended :
    pathAt world [0, 0, 0] = some pathOslo ∧
    pathAt world [1] = some pathAfrica ∧
    iterNodesPair (pnodeEqF 9) pathOslo pathAfrica =
      [oslo, norway, europe, world, africa] ∧
    countNodesPair (pnodeEqF 9) pathOslo pathAfrica = 5 ∧
    countEdgesPair (pnodeEqF 9) pathOslo pathAfrica = 4 ∧
    (iterTreeO .level world keepDepthLt3).map Prod.fst =
      [world, europe, africa, norway, sweden] := by
  decide

/-- C4 counterexample: two distinct standalone leaves are two nodes with no
common root (each is its own root), yet `Route.__init__` raises nothing —
`root != other_path[0]` compares with `BaseNode.__eq__`, which finds the
two structurally equal — and `NodePath.to` returns a path instead of
`None`.  So the error is not raised "exactly when the nodes do not share a
common root". -/
theorem route_check_misses_equal_roots :
    rootFromF 9 twoRootsStore 0 = 0 ∧ rootFromF 9 twoRootsStore 1 = 1 ∧
    (0 : Nat) ≠ 1 ∧
    routeCheckOk (shapeEqF 9 twoRootsStore) [[0], [1]] = true ∧
    toResultIsNone (shapeEqF 9 twoRootsStore) [0] [1] = false := by
  decide

/-- C4 amended: `Route.__init__` raises `DifferentTreeError` exactly when
some path's first (root) element compares unequal (under the node class's
`==`) with the first path's root, and for two nodes that is exactly when
`NodePath.to` returns `None`; distinct roots that compare equal are not
detected. -/
theorem route_check_iff_head_equal (eq : α → α → Bool) (p q : List α)
    (ps : List (List α)) (hp : p ≠ []) (hq : q ≠ []) :
    (routeCheckOk eq (p :: ps) = true ↔ ∀ r ∈ ps, headEq eq p r = true) ∧
    (toResultIsNone eq p q = true ↔ headEq eq p q = false) ∧
    (routeCheckOk eq [p, q] = false ↔ toResultIsNone eq p q = true) := by
  obtain ⟨a, p, rfl⟩ : ∃ a t, p = a :: t := by
    cases p with
    | nil => exact absurd rfl hp
    | cons a t => exact ⟨a, t, rfl⟩
  obtain ⟨b, q, rfl⟩ : ∃ b t, q = b :: t := by
    cases q with
    | nil => exact absurd rfl hq
    | cons b t => exact ⟨b, t, rfl⟩
  refine ⟨by simp [routeCheckOk], ?_, ?_⟩
  · simp only [toResultIsNone, lcp, headEq, List.head?]
    cases h : eq a b <;> simp [h]
  · simp only [routeCheckOk, toResultIsNone, lcp, headEq, List.head?, List.all_cons, List.all_nil]
    cases h : eq a b <;> simp [h]

/-- Witness for C4's amended theorem on the two structurally equal roots of
the counterexample store. -/
theorem route_check_iff_head_equal_witness :
    (([0] : List Nat) ≠ [] ∧ ([1] : List Nat) ≠ []) ∧
    ((routeCheckOk (shapeEqF 9 twoRootsStore) [[0], [1]] = true ↔
        ∀ r ∈ [[1]], headEq (shapeEqF 9 twoRootsStore) [0] r = true) ∧
     (toResultIsNone (shapeEqF 9 twoRootsStore) [0] [1] = true ↔
        headEq (shapeEqF 9 twoRootsStore) [0] [1] = false) ∧
     (routeCheckOk (shapeEqF 9 twoRootsStore) [[0], [1]] = false ↔
        toResultIsNone (shapeEqF 9 twoRootsStore) [0] [1] = true)) :=
  ⟨⟨by decide, by decide⟩,
   route_check_iff_head_equal (shapeEqF 9 twoRootsStore) [0] [1] [[1]]
     (by decide) (by decide)⟩

/-! ### Binary-search correctness of `Route._common` (C7) -/

theorem idxEqB_cons_succ (eq : α → α → Bool) (a b : α) (t1 t2 : List α) (i : Nat) :
    idxEqB eq (a :: t1) (b :: t2) (i + 1) = idxEqB eq t1 t2 i := by
  simp [idxEqB]

theorem lcp_le_min (eq : α → α → Bool) :
    ∀ s1 s2 : List α, lcp eq s1 s2 ≤ min s1.length s2.length := by
  intro s1
  induction s1 with
  | nil => intro s2; simp [lcp]
  | cons a t1 ih =>
    intro s2
    cases s2 with
    | nil => simp [lcp]
    | cons b t2 =>
      simp only [lcp, List.length_cons]
      cases heq : eq a b with
      | false => simp
      | true =>
        rw [if_pos rfl]
        have h := ih t2
        have h1 := le_trans h (min_le_left t1.length t2.length)
        have h2 := le_trans h (min_le_right t1.length t2.length)
        exact le_min (by omega) (by omega)

theorem idxEqB_of_lt_lcp (eq : α → α → Bool) :
    ∀ (s1 s2 : List α) (i : Nat), i < lcp eq s1 s2 → idxEqB eq s1 s2 i = true := by
  intro s1
  induction s1 with
  | nil => intro s2 i h; simp [lcp] at h
  | cons a t1 ih =>
    intro s2 i h
    cases s2 with
    | nil => simp [lcp] at h
    | cons b t2 =>
      simp only [lcp] at h
      cases heq : eq a b with
      | false => rw [heq] at h; rw [if_neg (by simp)] at h; omega
      | true =>
        rw [heq] at h
        rw [if_pos rfl] at h
        cases i with
        | zero => simpa [idxEqB] using heq
        | succ j =>
          rw [idxEqB_cons_succ]
          exact ih t2 j (by omega)

theorem idxEqB_at_lcp (eq : α → α → Bool) :
    ∀ s1 s2 : List α, lcp eq s1 s2 < min s1.length s2.length →
      idxEqB eq s1 s2 (lcp eq s1 s2) = false := by
  intro s1
  induction s1 with
  | nil => intro s2 h; simp [lcp] at h
  | cons a t1 ih =>
    intro s2 h
    cases s2 with
    | nil => simp [lcp] at h
    | cons b t2 =>
      simp only [lcp, List.length_cons] at h ⊢
      cases heq : eq a b with
      | false =>
        rw [if_neg (by simp)]
        simpa [idxEqB] using heq
      | true =>
        rw [heq] at h
        rw [if_pos rfl] at h
        rw [if_pos rfl]
        rw [idxEqB_cons_succ]
        apply ih t2
        have h1 := lt_of_lt_of_le h (min_le_left (t1.length + 1) (t2.length + 1))
        have h2 := lt_of_lt_of_le h (min_le_right (t1.length + 1) (t2.length + 1))
        exact lt_min (by omega) (by omega)

/-- Determination of the longest common prefix length: if every index below
`k` compares equal and `k` is either the length bound or a disagreeing
index, then `k` is the common-prefix length. -/
theorem lcp_eq_of_bounds (eq : α → α → Bool) (s1 s2 : List α) (k : Nat)
    (hk : k ≤ min s1.length s2.length)
    (hbelow : ∀ i, i < k → idxEqB eq s1 s2 i = true)
    (hat : k = min s1.length s2.length ∨ idxEqB eq s1 s2 k = false) :
    lcp eq s1 s2 = k := by
  rcases Nat.lt_trichotomy (lcp eq s1 s2) k with h | h | h
  · have hfalse := idxEqB_at_lcp eq s1 s2 (lt_of_lt_of_le h hk)
    have htrue := hbelow _ h
    rw [htrue] at hfalse
    exact absurd hfalse (by simp)
  · exact h
  · have htrue := idxEqB_of_lt_lcp eq s1 s2 k h
    rcases hat with hm | hfalse
    · have := lcp_le_min eq s1 s2
      omega
    · rw [htrue] at hfalse
      exact absurd hfalse (by simp)

/-- Loop invariant of the `[lower, upper]` binary search in `Route._common`:
`lower` stays a known-equal index, `upper` stays the initial untested bound
or a known-different index, and the loop exits with the range narrowed to
width at most one. -/
theorem commonLoopF_spec (eq : α → α → Bool) (s1 s2 : List α) (m : Nat) :
    ∀ fuel lo up, lo ≤ up → up ≤ m - 1 → up - lo ≤ fuel →
      idxEqB eq s1 s2 lo = true →
      (up = m - 1 ∨ idxEqB eq s1 s2 up = false) →
      ((commonLoopF eq s1 s2 fuel lo up).1 ≤ (commonLoopF eq s1 s2 fuel lo up).2 ∧
       (commonLoopF eq s1 s2 fuel lo up).2 ≤ m - 1 ∧
       (commonLoopF eq s1 s2 fuel lo up).2 - (commonLoopF eq s1 s2 fuel lo up).1 ≤ 1 ∧
       idxEqB eq s1 s2 (commonLoopF eq s1 s2 fuel lo up).1 = true ∧
       ((commonLoopF eq s1 s2 fuel lo up).2 = m - 1 ∨
        idxEqB eq s1 s2 (commonLoopF eq s1 s2 fuel lo up).2 = false)) := by
  intro fuel
  induction fuel with
  | zero =>
    intro lo up hlolu hup hfuel hlo hdisj
    simp only [commonLoopF]
    exact ⟨hlolu, hup, by omega, hlo, hdisj⟩
  | succ fuel ih =>
    intro lo up hlolu hup hfuel hlo hdisj
    simp only [commonLoopF]
    by_cases hgap : 1 < up - lo
    · have hdiv1 : 1 ≤ (up - lo + 1) / 2 :=
        (Nat.le_div_iff_mul_le (by norm_num)).2 (by omega)
      have hdiv2 : (up - lo + 1) / 2 < up - lo :=
        (Nat.div_lt_iff_lt_mul (by norm_num)).2 (by omega)
      simp only [if_pos hgap]
      cases heq : idxEqB eq s1 s2 (lo + (up - lo + 1) / 2) with
      | true =>
        simp only [if_pos rfl]
        exact ih (lo + (up - lo + 1) / 2) up (by omega) hup (by omega) heq hdisj
      | false =>
        simp only [Bool.false_eq_true, if_false]
        exact ih lo (lo + (up - lo + 1) / 2) (by omega) (by omega) (by omega) hlo
          (Or.inr heq)
    · simp only [if_neg hgap]
      exact ⟨hlolu, hup, by omega, hlo, hdisj⟩

/-- C7 amended: the claim's general statement about `Route._common` holds
under the preconditions the route construction establishes and the key
monotonicity property the spec assumes: both root-to-node paths are
nonempty, their index-0 (root) elements compare equal, and once the paths
differ at an index they differ at every later index.  Under those
hypotheses the binary search returns exactly the longest-common-prefix
length (so it is at least 1), and `Route.lca` — `paths[0][common - 1]` —
is the deepest index at which the paths still agree.  Without the
monotonicity hypothesis the search can overshoot (see the counterexample,
where `BaseNode.__eq__` makes the two created leaves compare equal and
`lca` returns the created node `B` instead of `A.path.get(["x"])`). -/
theorem common_binary_search_correct (eq : α → α → Bool) (s1 s2 : List α)
    (h1 : s1 ≠ []) (h2 : s2 ≠ [])
    (h0 : idxEqB eq s1 s2 0 = true)
    (hmono : ∀ j, j < min s1.length s2.length → ∀ i, i < j →
      idxEqB eq s1 s2 i = false → idxEqB eq s1 s2 j = false) :
    common eq s1 s2 = lcp eq s1 s2 ∧ 1 ≤ common eq s1 s2 ∧
      routeLca eq s1 s2 = s1.get? (lcp eq s1 s2 - 1) := by
  have hm1 : 1 ≤ min s1.length s2.length := by
    have l1 : 0 < s1.length := List.length_pos.2 h1
    have l2 : 0 < s2.length := List.length_pos.2 h2
    omega
  set m := min s1.length s2.length with hm
  have hspec := commonLoopF_spec eq s1 s2 m (m - 1 + 1) 0 (m - 1)
    (by omega) (le_refl _) (by omega) h0 (Or.inl rfl)
  set r := commonLoopF eq s1 s2 (m - 1 + 1) 0 (m - 1) with hr
  obtain ⟨hle, hub, hgap, hloeq, hupdisj⟩ := hspec
  have hbelow : ∀ i, i ≤ r.1 → idxEqB eq s1 s2 i = true := by
    intro i hi
    by_contra hfal
    have hfal' : idxEqB eq s1 s2 i = false := by
      cases h : idxEqB eq s1 s2 i
      · rfl
      · exact absurd h hfal
    rcases Nat.lt_or_ge i r.1 with hlt | hge
    · have := hmono r.1 (by omega) i hlt hfal'
      rw [this] at hloeq
      exact absurd hloeq (by simp)
    · have : i = r.1 := by omega
      rw [this, hloeq] at hfal'
      exact absurd hfal' (by simp)
  have hcommon : common eq s1 s2 = if idxEqB eq s1 s2 r.2 then r.2 + 1 else r.2 := by
    simp only [common, ← hm, ← hr]
  have hmain : common eq s1 s2 = lcp eq s1 s2 := by
    cases hat : idxEqB eq s1 s2 r.2 with
    | true =>
      rw [hcommon, if_pos hat]
      refine (lcp_eq_of_bounds eq s1 s2 (r.2 + 1) (by omega) ?_ ?_).symm
      · intro i hi
        rcases Nat.lt_or_ge i r.2 with hlt | hge
        · exact hbelow i (by omega)
        · have : i = r.2 := by omega
          rw [this]; exact hat
      · left
        rcases hupdisj with hlast | hfalse
        · omega
        · rw [hat] at hfalse; exact absurd hfalse (by simp)
    | false =>
      rw [hcommon, if_neg (by simp [hat])]
      have hne : r.1 ≠ r.2 := by
        intro hcontra
        rw [hcontra, hat] at hloeq
        exact absurd hloeq (by simp)
      refine (lcp_eq_of_bounds eq s1 s2 r.2 (by omega) ?_ (Or.inr hat)).symm
      intro i hi
      exact hbelow i (by omega)
  have hone : 1 ≤ common eq s1 s2 := by
    rw [hmain]
    by_contra hzero
    have hlz : lcp eq s1 s2 = 0 := by omega
    have := idxEqB_at_lcp eq s1 s2 (by omega)
    rw [hlz, h0] at this
    exact absurd this (by simp)
  exact ⟨hmain, hone, by simp only [routeLca, hmain]⟩

/-- C7 counterexample: starting from a lone `BaseNode` `A` (identifier "a"),
`B = A.path.create(["x", "y"])` and `C = A.path.create(["x", "z"])` build
`a → x → {y, z}`, but `route(B, C).lca()` evaluated with `BaseNode.__eq__`
returns `B` itself (object 2), not `A.path.get(["x"])` (object 1): the two
created leaves compare structurally equal, the paths never "differ", and
`_common` returns the full path length. -/
theorem lca_on_basenode_create_wrong :
    createOp createStore 0 ["x", "y"] = .ok (createdXY, 2) ∧
    createOp createdXY 0 ["x", "z"] = .ok (createdXYZ, 3) ∧
    pathIdsF 9 createdXYZ 2 = [0, 1, 2] ∧
    pathIdsF 9 createdXYZ 3 = [0, 1, 3] ∧
    routeLca (shapeEqF 9 createdXYZ) [0, 1, 2] [0, 1, 3] = some 2 ∧
    getWalk createdXYZ 0 ["x"] = some 1 ∧
    (some 2 : Option Nat) ≠ some 1 := by
  decide

/-- Witness for C7's amended theorem: the `a → x → {y, z}` scenario with
`Node.__eq__` (identifier-including equality) satisfies the hypotheses,
and the theorem then places the lowest common ancestor at `x`, matching
`A.path.get(["x"])`. -/
theorem common_binary_search_correct_witness :
    (([ndA, ndX, ndY] : List PNode) ≠ [] ∧ ([ndA, ndX, ndZ] : List PNode) ≠ [] ∧
     idxEqB (pnodeEqF 9) [ndA, ndX, ndY] [ndA, ndX, ndZ] 0 = true ∧
     lcp (pnodeEqF 9) [ndA, ndX, ndY] [ndA, ndX, ndZ] = 2 ∧
     ([ndA, ndX, ndY] : List PNode).get? 1 = some ndX) ∧
    (common (pnodeEqF 9) [ndA, ndX, ndY] [ndA, ndX, ndZ] =
        lcp (pnodeEqF 9) [ndA, ndX, ndY] [ndA, ndX, ndZ] ∧
      1 ≤ common (pnodeEqF 9) [ndA, ndX, ndY] [ndA, ndX, ndZ] ∧
      routeLca (pnodeEqF 9) [ndA, ndX, ndY] [ndA, ndX, ndZ] =
        ([ndA, ndX, ndY] : List PNode).get?
          (lcp (pnodeEqF 9) [ndA, ndX, ndY] [ndA, ndX, ndZ] - 1)) :=
  ⟨⟨by decide, by decide, by decide, by decide, by decide⟩,
   common_binary_search_correct (pnodeEqF 9) [ndA, ndX, ndY] [ndA, ndX, ndZ]
     (by decide) (by decide) (by decide) (by decide)⟩


/-! ### Idempotence of `path.create` (C8) -/

theorem aget_append_left (l l2 : List (Nat × NodeRec)) (x : Nat) (r : NodeRec)
    (h : aget l x = some r) : aget (l ++ l2) x = some r := by
  induction l with
  | nil => simp [aget] at h
  | cons e t ih =>
    obtain ⟨k, v⟩ := e
    simp only [aget, List.cons_append] at h ⊢
    by_cases hk : k = x
    · simpa [hk] using h
    · rw [if_neg hk] at h ⊢
      exact ih h

theorem aget_amodify (l : List (Nat × NodeRec)) (y : Nat) (f : NodeRec → NodeRec) (x : Nat) :
    aget (amodify l y f) x = if x = y then (aget l x).map f else aget l x := by
  induction l with
  | nil => by_cases hxy : x = y <;> simp [aget, amodify, hxy]
  | cons e t ih =>
    obtain ⟨k, v⟩ := e
    simp only [amodify]
    by_cases hky : k = y
    · rw [if_pos hky]
      subst hky
      by_cases hkx : k = x
      · subst hkx
        simp [aget]
      · have hxk : ¬ x = k := fun h : x = k => hkx h.symm
        simp only [aget, if_neg hkx, ih, if_neg hxk]
    · rw [if_neg hky]
      by_cases hkx : k = x
      · subst hkx
        simp [aget, if_neg hky]
      · simp only [aget, if_neg hkx, ih]

theorem klookup_kset_self (l : List (String × Nat)) (k : String) (v : Nat) :
    klookup (kset l k v) k = some v := by
  induction l with
  | nil => simp [kset, klookup]
  | cons e t ih =>
    obtain ⟨k1, v1⟩ := e
    simp only [kset]
    by_cases hk : k1 = k
    · rw [if_pos hk]
      simp [klookup]
    · rw [if_neg hk]
      simp only [klookup, if_neg hk, ih]

theorem klookup_kset_other (l : List (String × Nat)) (k g : String) (v : Nat)
    (hg : g ≠ k) : klookup (kset l k v) g = klookup l g := by
  have hkg : ¬ k = g := fun h : k = g => hg h.symm
  induction l with
  | nil => simp [kset, klookup, hkg]
  | cons e t ih =>
    obtain ⟨k1, v1⟩ := e
    simp only [kset]
    by_cases hk : k1 = k
    · rw [if_pos hk]
      subst hk
      simp only [klookup, if_neg hkg]
    · rw [if_neg hk]
      simp only [klookup, ih]

theorem getChild_setParent (s : Store) (y : Nat) (q : Option Nat) (x : Nat) (g : String) :
    getChild (setParent s y q) x g = getChild s x g := by
  simp only [getChild, setParent, modifyRec, aget_amodify]
  by_cases hxy : x = y
  · rw [if_pos hxy, hxy]
    cases aget s.recs y <;> simp
  · rw [if_neg hxy]

/-- `_create_node` only adds a fresh record and a fresh key to the parent's
dict, so every existing parent-child edge still resolves afterwards. -/
theorem getChild_createNodeOp (s s2 : Store) (seg : String) (pid f : Nat)
    (h : createNodeOp s seg pid = .ok (s2, f)) :
    ∀ x g c, getChild s x g = some c → getChild s2 x g = some c := by
  intro x g c hgc
  simp only [createNodeOp] at h
  split at h
  · exact absurd h (by simp)
  · rename_i prec hag
    split at h
    · exact absurd h (by simp)
    · split at h
      · exact absurd h (by simp)
      · rename_i hdup hloop
        simp only [Except.ok.injEq, Prod.mk.injEq] at h
        obtain ⟨hs2, _⟩ := h
        subst hs2
        rw [getChild_setParent]
        simp only [getChild, setKid, modifyRec, aget_amodify]
        simp only [getChild] at hgc
        rcases hgx : aget s.recs x with _ | rx
        · rw [hgx] at hgc; simp at hgc
        · rw [hgx] at hgc
          simp only [Option.some_bind] at hgc
          have hgx1 : aget (s.recs ++ [(s.next, ⟨seg, none, []⟩)]) x = some rx :=
            aget_append_left _ _ _ _ hgx
          by_cases hxp : x = pid
          · subst hxp
            rw [hgx1] at hag
            injection hag with hrx
            subst hrx
            rw [if_pos rfl, hgx1]
            simp only [Option.map_some', Option.some_bind]
            have hgs : g ≠ seg := by
              intro hcontra
              subst hcontra
              rw [hgc] at hdup
              simp at hdup
            rw [klookup_kset_other _ _ _ _ hgs]
            exact hgc
          · rw [if_neg hxp, hgx1]
            simpa using hgc

/-- `_create_node` makes the new segment resolve to the fresh node. -/
theorem createNodeOp_edge (s s2 : Store) (seg : String) (pid f : Nat)
    (h : createNodeOp s seg pid = .ok (s2, f)) :
    getChild s2 pid seg = some f := by
  simp only [createNodeOp] at h
  split at h
  · exact absurd h (by simp)
  · rename_i prec hag
    split at h
    · exact absurd h (by simp)
    · split at h
      · exact absurd h (by simp)
      · simp only [Except.ok.injEq, Prod.mk.injEq] at h
        obtain ⟨hs2, hf⟩ := h
        subst hs2
        subst hf
        rw [getChild_setParent]
        simp only [getChild, setKid, modifyRec, aget_amodify, if_pos rfl, hag]
        simp [klookup_kset_self]

theorem getChild_createRest (q : List String) :
    ∀ (s s2 : Store) (a m : Nat), createRest s a q = .ok (s2, m) →
      ∀ x g c, getChild s x g = some c → getChild s2 x g = some c := by
  induction q with
  | nil =>
    intro s s2 a m h x g c hgc
    simp only [createRest, Except.ok.injEq, Prod.mk.injEq] at h
    obtain ⟨hs, _⟩ := h
    subst hs
    exact hgc
  | cons seg rest ih =>
    intro s s2 a m h x g c hgc
    simp only [createRest] at h
    rcases hcn : createNodeOp s seg a with e | p1
    · rw [hcn] at h; simp at h
    · rw [hcn] at h
      exact ih p1.1 s2 p1.2 m h x g c (getChild_createNodeOp s p1.1 seg a p1.2 hcn x g c hgc)

/-- After a successful creation phase, the whole created segment chain
resolves by pure lookups in the resulting store. -/
theorem getWalk_createRest (q : List String) :
    ∀ (s s2 : Store) (a m : Nat), createRest s a q = .ok (s2, m) →
      getWalk s2 a q = some m := by
  induction q with
  | nil =>
    intro s s2 a m h
    simp only [createRest, Except.ok.injEq, Prod.mk.injEq] at h
    simp [getWalk, h.2]
  | cons seg rest ih =>
    intro s s2 a m h
    simp only [createRest] at h
    rcases hcn : createNodeOp s seg a with e | p1
    · rw [hcn] at h; simp at h
    · rw [hcn] at h
      have hedge : getChild s2 a seg = some p1.2 :=
        getChild_createRest rest p1.1 s2 p1.2 m h a seg p1.2
          (createNodeOp_edge s p1.1 seg a p1.2 hcn)
      simp only [getWalk, hedge]
      exact ih p1.1 s2 p1.2 m h

theorem getChild_createOp (q : List String) :
    ∀ (s s2 : Store) (a m : Nat), createOp s a q = .ok (s2, m) →
      ∀ x g c, getChild s x g = some c → getChild s2 x g = some c := by
  induction q with
  | nil =>
    intro s s2 a m h x g c hgc
    simp only [createOp, Except.ok.injEq, Prod.mk.injEq] at h
    obtain ⟨hs, _⟩ := h
    subst hs
    exact hgc
  | cons seg rest ih =>
    intro s s2 a m h x g c hgc
    simp only [createOp] at h
    rcases hgc2 : getChild s a seg with _ | c2
    · rw [hgc2] at h
      exact getChild_createRest (seg :: rest) s s2 a m h x g c hgc
    · rw [hgc2] at h
      exact ih s s2 c2 m h x g c hgc

/-- After a successful `path.create`, the full segment path resolves by pure
lookups to the returned node. -/
theorem getWalk_createOp (q : List String) :
    ∀ (s s2 : Store) (a m : Nat), createOp s a q = .ok (s2, m) →
      getWalk s2 a q = some m := by
  induction q with
  | nil =>
    intro s s2 a m h
    simp only [createOp, Except.ok.injEq, Prod.mk.injEq] at h
    simp [getWalk, h.2]
  | cons seg rest ih =>
    intro s s2 a m h
    simp only [createOp] at h
    rcases hgc : getChild s a seg with _ | c
    · rw [hgc] at h
      exact getWalk_createRest (seg :: rest) s s2 a m h
    · rw [hgc] at h
      have hedge : getChild s2 a seg = some c :=
        getChild_createOp rest s s2 c m h a seg c hgc
      simp only [getWalk, hedge]
      exact ih s s2 c m h

/-- When the whole path already resolves by lookups, `path.create` walks it
and returns the resolved node without touching the store. -/
theorem createOp_of_walk (q : List String) :
    ∀ (s : Store) (a m : Nat), getWalk s a q = some m → createOp s a q = .ok (s, m) := by
  induction q with
  | nil =>
    intro s a m h
    simp only [getWalk] at h
    injection h with h
    simp [createOp, h]
  | cons seg rest ih =>
    intro s a m h
    simp only [getWalk] at h
    rcases hgc : getChild s a seg with _ | c
    · rw [hgc] at h; simp at h
    · rw [hgc] at h
      simp only [createOp, hgc]
      exact ih s c m h

theorem getWalk_append (s : Store) (q r : List String) :
    ∀ n, getWalk s n (q ++ r) = (getWalk s n q).bind (fun w => getWalk s w r) := by
  induction q with
  | nil => intro n; simp [getWalk]
  | cons seg rest ih =>
    intro n
    simp only [List.cons_append, getWalk]
    rcases hgc : getChild s n seg with _ | c
    · simp
    · exact ih c

/-- C8: `path.create` is idempotent.  If `n.path.create(p)` completes,
returning node `m` with the tree in state `s1`, then calling it again
returns the very same node `m` and leaves the state exactly `s1` (no node
created, no link or identifier modified); and a second call on any prefix
of `p` likewise leaves the state unchanged, returning the existing node at
that prefix. -/
theorem create_idempotent (s : Store) (n : Nat) (p : List String) (s1 : Store) (m : Nat)
    (h : createOp s n p = .ok (s1, m)) :
    createOp s1 n p = .ok (s1, m) ∧
    ∀ q r, q ++ r = p → ∃ m2, createOp s1 n q = .ok (s1, m2) := by
  have hw : getWalk s1 n p = some m := getWalk_createOp p s s1 n m h
  refine ⟨createOp_of_walk p s1 n m hw, ?_⟩
  intro q r hqr
  subst hqr
  rw [getWalk_append] at hw
  rcases hq : getWalk s1 n q with _ | m2
  · rw [hq] at hw; simp at hw
  · exact ⟨m2, createOp_of_walk q s1 n m2 hq⟩

/-- Witness for C8: creating `["x", "y"]` under the lone node `a` and
calling create again (also on the prefix `["x"]`) returns the same node
with the store unchanged. -/
theorem create_idempotent_witness :
    createOp createStore 0 ["x", "y"] = .ok (createdXY, 2) ∧
    (createOp createdXY 0 ["x", "y"] = .ok (createdXY, 2) ∧
     ∀ q r, q ++ r = ["x", "y"] → ∃ m2, createOp createdXY 0 q = .ok (createdXY, m2)) :=
  ⟨by decide, create_idempotent createStore 0 ["x", "y"] createdXY 2 (by decide)⟩


/-! ### Iterative postorder equals the recursive reference (C5) -/

/-- Induction principle for `PForest` alone (the `induction` tactic cannot
use the mutual recursor directly). -/
theorem PForest.inductionOn {motive : PForest → Prop} (h0 : motive .nil)
    (h1 : ∀ k ks, motive ks → motive (.cons k ks)) : ∀ ks, motive ks :=
  fun ks =>
    @PForest.rec (fun _ => True) motive (fun _ _ _ => trivial) h0
      (fun k ks _ hks => h1 k ks hks) ks

theorem sizeP_pos (n : PNode) : 1 ≤ sizeP n := by
  cases n with
  | mk id ks => simp [sizeP]

theorem sizeItems_enumItems (ks : PForest) :
    ∀ idx d, sizeItems (enumItems idx d ks) = sizeF ks := by
  induction ks using PForest.inductionOn with
  | h0 => intro idx d; simp [enumItems, sizeItems, sizeF]
  | h1 k ks ih =>
    intro idx d
    simp only [enumItems, sizeItems, sizeF, ih]

theorem procL_append (keep : PNode → NodeItem → Bool) (l1 l2 : List (PNode × NodeItem)) :
    procL keep (l1 ++ l2) = procL keep l1 ++ procL keep l2 := by
  induction l1 with
  | nil => simp [procL]
  | cons e l ih => simp [procL, ih]

theorem postRecL_eq_procL (keep : PNode → NodeItem → Bool) (d : Nat) (ks : PForest) :
    ∀ idx, postRecL keep d idx ks = procL keep (enumItems idx d ks) := by
  induction ks using PForest.inductionOn with
  | h0 => intro idx; simp [postRecL, enumItems, procL]
  | h1 c cs ih =>
    intro idx
    simp only [postRecL, enumItems, procL, procOne, ih]

theorem postRecD_eq_procL (keep : PNode → NodeItem → Bool) (d : Nat) (n : PNode) :
    postRecD keep d n = procL keep (enumItems 0 d n.kids) := by
  cases n with
  | mk id ks =>
    simp only [postRecD, PNode.kids]
    exact postRecL_eq_procL keep d ks 0

/-- A stopped descent position (rejected or a leaf) contributes to the
postorder output exactly the machine's `emitD`. -/
theorem procOne_stopped (keep : PNode → NodeItem → Bool) (d : PNode) (di : NodeItem)
    (h : keep d di = false ∨ d.kids = PForest.nil) :
    procOne keep (d, di) = if keep d di then [(d, di)] else [] := by
  rcases h with hk | hleaf
  · simp [procOne, hk]
  · rcases d with ⟨idd, ksd⟩
    simp only [PNode.kids] at hleaf
    subst hleaf
    simp only [procOne, postRecD, postRecL]
    cases hkp : keep ⟨idd, PForest.nil⟩ di <;> simp [hkp]

/-- The descent loop preserves the pending postorder denotation, stops at a
rejected node or a leaf, and never grows the pending size. -/
theorem descendF_spec (keep : PNode → NodeItem → Bool) :
    ∀ fuel n i rest stack d di rest' stack',
      sizeP n ≤ fuel →
      descendF keep fuel n i rest stack = ((d, di), rest', stack') →
      (procOne keep (d, di) ++ procL keep rest' ++ flattenStack keep stack' =
        procOne keep (n, i) ++ procL keep rest ++ flattenStack keep stack) ∧
      (keep d di = false ∨ d.kids = PForest.nil) ∧
      sizeP d + sizeItems rest' + sizeFrames stack' ≤
        sizeP n + sizeItems rest + sizeFrames stack := by
  intro fuel
  induction fuel with
  | zero =>
    intro n i rest stack d di rest' stack' hsz
    have := sizeP_pos n
    omega
  | succ fuel ih =>
    intro n i rest stack d di rest' stack' hsz heq
    rcases n with ⟨id, ks⟩
    simp only [descendF] at heq
    cases hkeep : keep ⟨id, ks⟩ i with
    | false =>
      rw [if_neg (by simp [hkeep])] at heq
      simp only [Prod.mk.injEq] at heq
      obtain ⟨⟨h1, h2⟩, h3, h4⟩ := heq
      subst h1; subst h2; subst h3; subst h4
      exact ⟨rfl, Or.inl hkeep, le_refl _⟩
    | true =>
      rw [if_pos hkeep] at heq
      cases ks with
      | nil =>
        simp only [PNode.kids, enumItems] at heq
        simp only [Prod.mk.injEq] at heq
        obtain ⟨⟨h1, h2⟩, h3, h4⟩ := heq
        subst h1; subst h2; subst h3; subst h4
        exact ⟨rfl, Or.inr rfl, le_refl _⟩
      | cons k ks2 =>
        simp only [PNode.kids, enumItems] at heq
        have hszk : sizeP k ≤ fuel := by
          simp only [sizeP, sizeF] at hsz
          have := sizeP_pos k
          omega
        obtain ⟨hinv, hstop, hsz2⟩ :=
          ih k ⟨0, i.depth + 1⟩ (enumItems 1 (i.depth + 1) ks2)
            ((⟨id, .cons k ks2⟩, i, rest) :: stack) d di rest' stack' hszk heq
        refine ⟨?_, hstop, ?_⟩
        · rw [hinv]
          have hpost : postRecD keep (i.depth + 1) ⟨id, .cons k ks2⟩ =
              procL keep (enumItems 0 (i.depth + 1) (PForest.cons k ks2)) :=
            postRecD_eq_procL keep (i.depth + 1) ⟨id, .cons k ks2⟩
          simp only [flattenStack]
          conv_rhs => rw [show procOne keep (⟨id, PForest.cons k ks2⟩, i) =
            postRecD keep (i.depth + 1) ⟨id, .cons k ks2⟩ ++
              [(⟨id, PForest.cons k ks2⟩, i)] from by simp [procOne, hkeep]]
          rw [hpost]
          simp only [enumItems, procL]
          simp [List.append_assoc, procL]
        · simp only [sizeFrames, sizeItems_enumItems] at hsz2
          simp only [sizeP, sizeF]
          have := sizeItems_enumItems ks2 1 (i.depth + 1)
          omega

/-- The ascent loop emits exactly the stacked owners it pops, and hands back
a pending state denoting the rest of the stack. -/
theorem upAll_flatten (keep : PNode → NodeItem → Bool) :
    ∀ stack : List Frame,
      (∀ es, upAll stack = (es, none) → flattenStack keep stack = es) ∧
      (∀ es n2 i2 r2 s2, upAll stack = (es, some (n2, i2, r2, s2)) →
        (flattenStack keep stack =
          es ++ procOne keep (n2, i2) ++ procL keep r2 ++ flattenStack keep s2) ∧
        sizeP n2 + sizeItems r2 + sizeFrames s2 ≤ sizeFrames stack) := by
  intro stack
  induction stack with
  | nil =>
    constructor
    · intro es h
      simp only [upAll, Prod.mk.injEq] at h
      simp [flattenStack, h.1.symm]
    · intro es n2 i2 r2 s2 h
      simp only [upAll, Prod.mk.injEq] at h
      exact absurd h.2 (by simp)
  | cons fr s ih =>
    rcases fr with ⟨p, ip, restp⟩
    cases restp with
    | cons e r2a =>
      rcases e with ⟨n2a, i2a⟩
      constructor
      · intro es h
        simp only [upAll, Prod.mk.injEq] at h
        exact absurd h.2 (by simp)
      · intro es n2 i2 r2 s2 h
        simp only [upAll, Prod.mk.injEq, Option.some.injEq] at h
        obtain ⟨hes, hn2, hi2, hr2, hs2⟩ := h
        subst hes; subst hn2; subst hi2; subst hr2; subst hs2
        constructor
        · simp [flattenStack, procL, List.append_assoc]
        · simp only [sizeFrames, sizeItems]
          omega
    | nil =>
      rcases hup : upAll s with ⟨es0, c0⟩
      constructor
      · intro es h
        simp only [upAll, hup, Prod.mk.injEq] at h
        obtain ⟨hes, hc⟩ := h
        subst hes
        rcases c0 with _ | cc
        · have := (ih.1) es0 (by rw [hup])
          simp [flattenStack, procL, this]
        · simp at hc
      · intro es n2 i2 r2 s2 h
        simp only [upAll, hup, Prod.mk.injEq] at h
        obtain ⟨hes, hc⟩ := h
        subst hes
        rcases c0 with _ | cc
        · simp at hc
        · have hcc : cc = (n2, i2, r2, s2) := Option.some.inj hc
          subst hcc
          obtain ⟨hflat, hsz⟩ := (ih.2) es0 n2 i2 r2 s2 (by rw [hup])
          constructor
          · simp [flattenStack, procL, hflat, List.append_assoc]
          · simp only [sizeFrames, sizeItems]
            omega

/-- The outer loop of `Tree._iter_descendants_post` computes the pending
postorder denotation, given fuel at least the pending node count. -/
theorem iterLoopF_spec (keep : PNode → NodeItem → Bool) :
    ∀ fuel n i rest stack,
      sizeP n + sizeItems rest + sizeFrames stack ≤ fuel →
      iterLoopF keep fuel n i rest stack =
        procOne keep (n, i) ++ procL keep rest ++ flattenStack keep stack := by
  intro fuel
  induction fuel with
  | zero =>
    intro n i rest stack hsz
    have := sizeP_pos n
    omega
  | succ fuel ih =>
    intro n i rest stack hsz
    rcases hdes : descendF keep (fuel + 1) n i rest stack with ⟨⟨d, di⟩, rest', stack'⟩
    obtain ⟨hinv, hstop, hsz2⟩ :=
      descendF_spec keep (fuel + 1) n i rest stack d di rest' stack' (by omega) hdes
    have hemit : (if keep d di then [(d, di)] else []) = procOne keep (d, di) :=
      (procOne_stopped keep d di hstop).symm
    have hdp := sizeP_pos d
    cases rest' with
    | cons e r2 =>
      rcases e with ⟨n2, i2⟩
      have hm2 : sizeP n2 + sizeItems r2 + sizeFrames stack' ≤ fuel := by
        simp only [sizeItems] at hsz2
        omega
      simp only [iterLoopF, hdes]
      rw [ih n2 i2 r2 stack' hm2, hemit, ← hinv]
      simp only [procL, List.append_assoc]
    | nil =>
      rcases hup : upAll stack' with ⟨es, c⟩
      cases c with
      | none =>
        have hflat := (upAll_flatten keep stack').1 es (by rw [hup])
        simp only [iterLoopF, hdes, hup]
        rw [hemit, ← hinv, hflat]
        simp [procL]
      | some cc =>
        rcases cc with ⟨n2, i2, r2, s2⟩
        obtain ⟨hflat, hsz3⟩ := (upAll_flatten keep stack').2 es n2 i2 r2 s2 (by rw [hup])
        have hm2 : sizeP n2 + sizeItems r2 + sizeFrames s2 ≤ fuel := by
          simp only [sizeItems] at hsz2
          omega
        simp only [iterLoopF, hdes, hup]
        rw [ih n2 i2 r2 s2 hm2, hemit, ← hinv, hflat]
        simp [procL, List.append_assoc]

theorem procL_enumItems_eq_postRec (keep : PNode → NodeItem → Bool) (t : PNode) :
    procL keep (enumItems 0 1 t.kids) = postRecD keep 1 t :=
  (postRecD_eq_procL keep 1 t).symm

theorem itDescPost_eq_postRecD (t : PNode) (keep : PNode → NodeItem → Bool) :
    itDescPost t keep = postRecD keep 1 t := by
  unfold itDescPost
  rcases t with ⟨id, ks⟩
  cases ks with
  | nil => simp [PNode.kids, enumItems, postRecD, postRecL]
  | cons k ks2 =>
    simp only [PNode.kids, enumItems]
    have hm : sizeP k + sizeItems (enumItems 1 1 ks2) + sizeFrames [] ≤
        sizeP ⟨id, .cons k ks2⟩ := by
      simp only [sizeItems_enumItems, sizeFrames, sizeP, sizeF]
      omega
    rw [iterLoopF_spec keep (sizeP ⟨id, .cons k ks2⟩) k ⟨0, 1⟩
      (enumItems 1 1 ks2) [] hm]
    have := procL_enumItems_eq_postRec keep ⟨id, PForest.cons k ks2⟩
    simp only [PNode.kids, enumItems, procL] at this
    simp only [flattenStack, List.append_nil]
    rw [← this]

/-- C5: for every tree and every keep predicate, the iterative postorder
machine of `Tree._iter_descendants_post` (explicit stack of frames holding
the parent item and the sibling iterator) yields exactly the same sequence
of `(node, item)` pairs as the naive recursive reference implementation
`DownTree._iter_descendants_post`. -/
theorem iterative_postorder_eq_recursive (t : PNode) (keep : PNode → NodeItem → Bool) :
    itDescPost t keep = postRecD keep 1 t :=
  itDescPost_eq_postRecD t keep


/-! ### Pruning: traversal output stays inside the kept region (C9) -/

theorem mem_enumItems (ks : PForest) :
    ∀ idx d x j, (x, j) ∈ enumItems idx d ks →
      ∃ off, forestGet ks off = some x ∧ j = ⟨idx + off, d⟩ := by
  induction ks using PForest.inductionOn with
  | h0 => intro idx d x j h; simp [enumItems] at h
  | h1 k ks ih =>
    intro idx d x j h
    simp only [enumItems, List.mem_cons] at h
    rcases h with h | h
    · simp only [Prod.mk.injEq] at h
      exact ⟨0, by simp [forestGet, h.1.symm], by simp [h.2.symm]⟩
    · obtain ⟨off, hg, hj⟩ := ih (idx + 1) d x j h
      refine ⟨off + 1, by simp [forestGet, hg], ?_⟩
      rw [hj]
      have : idx + 1 + off = idx + (off + 1) := by omega
      rw [this]

/-- A pair output by the preorder deque machine is kept-reachable from some
queue entry (at any fuel: the machine only ever emits along kept chains). -/
theorem mem_preListF (keep : PNode → NodeItem → Bool) :
    ∀ fuel l m im, (m, im) ∈ preListF keep fuel l →
      ∃ x j, (x, j) ∈ l ∧ keep x j = true ∧
        ((m, im) = (x, j) ∨ Reach keep x (j.depth + 1) m im) := by
  intro fuel
  induction fuel with
  | zero => intro l m im h; simp [preListF] at h
  | succ fuel ih =>
    intro l m im h
    cases l with
    | nil => simp [preListF] at h
    | cons e rest =>
      rcases e with ⟨n, i⟩
      simp only [preListF] at h
      cases hkeep : keep n i with
      | false =>
        rw [if_neg (by simp [hkeep])] at h
        obtain ⟨x, j, hxl, hk, hor⟩ := ih rest m im h
        exact ⟨x, j, List.mem_cons_of_mem _ hxl, hk, hor⟩
      | true =>
        rw [if_pos hkeep] at h
        rcases List.mem_cons.1 h with heq | hmem
        · exact ⟨n, i, List.mem_cons_self _ _, hkeep, Or.inl heq⟩
        · obtain ⟨x, j, hxl, hk, hor⟩ := ih _ m im hmem
          rcases List.mem_append.1 hxl with hin | hin
          · obtain ⟨off, hg, hj⟩ := mem_enumItems n.kids 0 (i.depth + 1) x j hin
            refine ⟨n, i, List.mem_cons_self _ _, hkeep, Or.inr ?_⟩
            subst hj
            rcases hor with heq2 | hreach
            · obtain ⟨hm, him⟩ := Prod.mk.inj heq2
              rw [hm, him]
              exact Reach.here n (i.depth + 1) (0 + off) x (by simpa using hg) hk
            · exact Reach.there n (i.depth + 1) (0 + off) x m im (by simpa using hg) hk
                (by simpa using hreach)
          · exact ⟨x, j, List.mem_cons_of_mem _ hin, hk, hor⟩

/-- Same statement for the FIFO machine of the level-order traversal. -/
theorem mem_levelListF (keep : PNode → NodeItem → Bool) :
    ∀ fuel l m im, (m, im) ∈ levelListF keep fuel l →
      ∃ x j, (x, j) ∈ l ∧ keep x j = true ∧
        ((m, im) = (x, j) ∨ Reach keep x (j.depth + 1) m im) := by
  intro fuel
  induction fuel with
  | zero => intro l m im h; simp [levelListF] at h
  | succ fuel ih =>
    intro l m im h
    cases l with
    | nil => simp [levelListF] at h
    | cons e rest =>
      rcases e with ⟨n, i⟩
      simp only [levelListF] at h
      cases hkeep : keep n i with
      | false =>
        rw [if_neg (by simp [hkeep])] at h
        obtain ⟨x, j, hxl, hk, hor⟩ := ih rest m im h
        exact ⟨x, j, List.mem_cons_of_mem _ hxl, hk, hor⟩
      | true =>
        rw [if_pos hkeep] at h
        rcases List.mem_cons.1 h with heq | hmem
        · exact ⟨n, i, List.mem_cons_self _ _, hkeep, Or.inl heq⟩
        · obtain ⟨x, j, hxl, hk, hor⟩ := ih _ m im hmem
          rcases List.mem_append.1 hxl with hin | hin
          · exact ⟨x, j, List.mem_cons_of_mem _ hin, hk, hor⟩
          · obtain ⟨off, hg, hj⟩ := mem_enumItems n.kids 0 (i.depth + 1) x j hin
            refine ⟨n, i, List.mem_cons_self _ _, hkeep, Or.inr ?_⟩
            subst hj
            rcases hor with heq2 | hreach
            · obtain ⟨hm, him⟩ := Prod.mk.inj heq2
              rw [hm, him]
              exact Reach.here n (i.depth + 1) (0 + off) x (by simpa using hg) hk
            · exact Reach.there n (i.depth + 1) (0 + off) x m im (by simpa using hg) hk
                (by simpa using hreach)

theorem sizeP_le_of_forestGet (ks : PForest) :
    ∀ off x, forestGet ks off = some x → sizeP x ≤ sizeF ks := by
  induction ks using PForest.inductionOn with
  | h0 => intro off x h; simp [forestGet] at h
  | h1 k ks ih =>
    intro off x h
    cases off with
    | zero =>
      simp only [forestGet] at h
      injection h with h
      rw [← h]
      simp only [sizeF]
      exact Nat.le_add_right _ _
    | succ off =>
      simp only [forestGet] at h
      have := ih off x h
      simp only [sizeF]
      omega

theorem mem_postRecL (keep : PNode → NodeItem → Bool) (d : Nat) (ks : PForest) :
    ∀ idx m im, (m, im) ∈ postRecL keep d idx ks →
      ∃ off x, forestGet ks off = some x ∧ keep x ⟨idx + off, d⟩ = true ∧
        ((m, im) = (x, ⟨idx + off, d⟩) ∨ (m, im) ∈ postRecD keep (d + 1) x) := by
  induction ks using PForest.inductionOn with
  | h0 => intro idx m im h; simp [postRecL] at h
  | h1 c cs ih =>
    intro idx m im h
    simp only [postRecL, List.mem_append] at h
    rcases h with h | h
    · cases hkeep : keep c ⟨idx, d⟩ with
      | false => rw [if_neg (by simp [hkeep])] at h; simp at h
      | true =>
        rw [if_pos hkeep] at h
        refine ⟨0, c, by simp [forestGet], by simpa using hkeep, ?_⟩
        rcases List.mem_append.1 h with hrec | hself
        · exact Or.inr (by simpa using hrec)
        · simp only [List.mem_singleton] at hself
          exact Or.inl (by simpa using hself)
    · obtain ⟨off, x, hg, hk, hor⟩ := ih (idx + 1) m im h
      refine ⟨off + 1, x, by simp [forestGet, hg], ?_, ?_⟩
      · have : idx + (off + 1) = idx + 1 + off := by omega
        rw [this]
        exact hk
      · have : idx + (off + 1) = idx + 1 + off := by omega
        rw [this]
        exact hor

/-- Every pair of the recursive postorder output is kept-reachable. -/
theorem mem_postRecD_reach (keep : PNode → NodeItem → Bool) :
    ∀ N n, sizeP n ≤ N → ∀ d m im, (m, im) ∈ postRecD keep d n → Reach keep n d m im := by
  intro N
  induction N with
  | zero =>
    intro n hsz
    have := sizeP_pos n
    omega
  | succ N ih =>
    intro n hsz d m im h
    obtain ⟨id, ks⟩ := n
    simp only [postRecD] at h
    obtain ⟨off, x, hg, hk, hor⟩ := mem_postRecL keep d ks 0 m im h
    have hgk : forestGet (PNode.mk id ks).kids off = some x := by simpa [PNode.kids] using hg
    rcases hor with heq | hrec
    · obtain ⟨hm, him⟩ := Prod.mk.inj heq
      rw [hm, him]
      simpa using Reach.here (PNode.mk id ks) d off x hgk (by simpa using hk)
    · have hszx : sizeP x ≤ N := by
        have h1 := sizeP_le_of_forestGet ks off x hg
        simp only [sizeP] at hsz
        omega
      exact Reach.there _ d off x m im hgk (by simpa using hk) (ih x hszx (d + 1) m im hrec)

/-- Every pair output by `iter_descendants` (any order) is kept-reachable
from the call root. -/
theorem mem_iterDesc_reach (ord : TOrder) (t : PNode) (keep : PNode → NodeItem → Bool)
    (m : PNode) (im : NodeItem) (h : (m, im) ∈ iterDescO ord t keep) :
    Reach keep t 1 m im := by
  have build : ∀ x j, (x, j) ∈ enumItems 0 1 t.kids → keep x j = true →
      ((m, im) = (x, j) ∨ Reach keep x (j.depth + 1) m im) → Reach keep t 1 m im := by
    intro x j hin hk hor
    obtain ⟨off, hg, hj⟩ := mem_enumItems t.kids 0 1 x j hin
    subst hj
    rcases hor with heq | hreach
    · obtain ⟨hm, him⟩ := Prod.mk.inj heq
      rw [hm, him]
      exact Reach.here t 1 (0 + off) x (by simpa using hg) hk
    · exact Reach.there t 1 (0 + off) x m im (by simpa using hg) hk
        (by simpa using hreach)
  cases ord with
  | pre =>
    obtain ⟨x, j, hin, hk, hor⟩ := mem_preListF keep _ _ m im h
    exact build x j hin hk hor
  | level =>
    obtain ⟨x, j, hin, hk, hor⟩ := mem_levelListF keep _ _ m im h
    exact build x j hin hk hor
  | post =>
    have hpost : (m, im) ∈ postRecD keep 1 t := by
      have := itDescPost_eq_postRecD t keep
      simpa [iterDescO, this] using h
    exact mem_postRecD_reach keep (sizeP t) t (le_refl _) 1 m im hpost


/-- Every kept-reachable pair sits at some nonempty position whose chain is
entirely kept, with the item the traversals assign to that position. -/
theorem reach_path (keep : PNode → NodeItem → Bool) (n : PNode) (d : Nat) (m : PNode)
    (im : NodeItem) (h : Reach keep n d m im) :
    ∃ p : List Nat, p ≠ [] ∧ posGet n p = some m ∧ KeptAlong keep n d p ∧
      p.getLast? = some im.index ∧ im.depth + 1 = d + p.length := by
  induction h with
  | here n d idx c hget hk =>
    refine ⟨[idx], by simp, ?_, ⟨c, hget, hk, trivial⟩, by simp, by simp⟩
    simp [posGet, hget]
  | there n d idx c m im hget hk hr ih =>
    obtain ⟨p, hne, hpos, hkept, hlast, hdep⟩ := ih
    refine ⟨idx :: p, by simp, ?_, ⟨c, hget, hk, hkept⟩, ?_, ?_⟩
    · simp [posGet, hget, hpos]
    · cases p with
      | nil => exact absurd rfl hne
      | cons a q => simpa using hlast
    · simp only [List.length_cons]
      omega

theorem keptAlong_append (keep : PNode → NodeItem → Bool) :
    ∀ (p r : List Nat) (n : PNode) (d : Nat),
      KeptAlong keep n d (p ++ r) → KeptAlong keep n d p := by
  intro p
  induction p with
  | nil => intro r n d h; trivial
  | cons idx p ih =>
    intro r n d h
    simp only [List.cons_append, KeptAlong] at h ⊢
    obtain ⟨c, hget, hk, hrest⟩ := h
    exact ⟨c, hget, hk, ih r c (d + 1) hrest⟩

/-- The final node of a nonempty all-kept chain was itself accepted by
`keep`, with the item of its position. -/
theorem keptAlong_last (keep : PNode → NodeItem → Bool) :
    ∀ (p : List Nat) (n : PNode) (d : Nat) (w : PNode) (i0 : Nat),
      p ≠ [] → KeptAlong keep n d p → posGet n p = some w →
      p.getLast? = some i0 → keep w ⟨i0, d + p.length - 1⟩ = true := by
  intro p
  induction p with
  | nil => intro n d w i0 hne; exact absurd rfl hne
  | cons idx p ih =>
    intro n d w i0 hne hkept hpos hlast
    obtain ⟨c, hget, hk, hrest⟩ := hkept
    simp only [posGet, hget] at hpos
    cases p with
    | nil =>
      simp only [posGet] at hpos
      injection hpos with hw
      subst hw
      simp only [List.getLast?_singleton, Option.some.injEq] at hlast
      subst hlast
      simpa using hk
    | cons b q =>
      have hlast2 : (b :: q).getLast? = some i0 := by simpa using hlast
      have hrec := ih c (d + 1) w i0 (by simp) hrest hpos hlast2
      have harith : d + 1 + (b :: q).length - 1 = d + (idx :: b :: q).length - 1 := by
        simp only [List.length_cons]
        omega
      rw [harith] at hrec
      exact hrec

theorem posGet_append :
    ∀ (p r : List Nat) (t : PNode),
      posGet t (p ++ r) = (posGet t p).bind fun w => posGet w r := by
  intro p
  induction p with
  | nil => intro r t; simp [posGet]
  | cons i p ih =>
    intro r t
    simp only [List.cons_append, posGet]
    cases hg : forestGet t.kids i with
    | none => simp
    | some c => simp [ih]

theorem mem_idents_head (t : PNode) : t.ident ∈ idents t := by
  cases t with
  | mk id ks => simp [idents, PNode.ident]

theorem mem_identsF_of_forestGet (ks : PForest) :
    ∀ i c, forestGet ks i = some c → ∀ x, x ∈ idents c → x ∈ identsF ks := by
  induction ks using PForest.inductionOn with
  | h0 => intro i c h; simp [forestGet] at h
  | h1 k ks ih =>
    intro i c h x hx
    cases i with
    | zero =>
      simp only [forestGet] at h
      injection h with h
      subst h
      exact List.mem_append.2 (Or.inl hx)
    | succ i =>
      simp only [forestGet] at h
      exact List.mem_append.2 (Or.inr (ih i c h x hx))

theorem mem_idents_of_posGet :
    ∀ (p : List Nat) (t m : PNode), posGet t p = some m → m.ident ∈ idents t := by
  intro p
  induction p with
  | nil =>
    intro t m h
    simp only [posGet] at h
    injection h with h
    subst h
    exact mem_idents_head t
  | cons i p ih =>
    intro t m h
    obtain ⟨id, ks⟩ := t
    simp only [posGet, PNode.kids] at h
    cases hg : forestGet ks i with
    | none => rw [hg] at h; simp at h
    | some c =>
      rw [hg] at h
      have hmem := ih c m h
      have := mem_identsF_of_forestGet ks i c hg m.ident hmem
      simp only [idents, List.mem_cons]
      exact Or.inr this

/-- A strictly deeper position can never come back to the node itself when
all identifiers are distinct. -/
theorem no_self_descendant (t : PNode) (j : Nat) (q : List Nat)
    (hnd : (idents t).Nodup) (h : posGet t (j :: q) = some t) : False := by
  obtain ⟨id, ks⟩ := t
  simp only [posGet, PNode.kids] at h
  cases hg : forestGet ks j with
  | none => rw [hg] at h; simp at h
  | some c =>
    rw [hg] at h
    have hmem : (PNode.mk id ks).ident ∈ idents c := mem_idents_of_posGet q c _ h
    have hin : (PNode.mk id ks).ident ∈ identsF ks :=
      mem_identsF_of_forestGet ks j c hg _ hmem
    simp only [idents, List.nodup_cons] at hnd
    exact hnd.1 (by simpa [PNode.ident] using hin)

/-- Subtrees reached through the child list inherit distinctness. -/
theorem nodup_idents_of_forestGet (ks : PForest) :
    ∀ i c, forestGet ks i = some c → (identsF ks).Nodup → (idents c).Nodup := by
  induction ks using PForest.inductionOn with
  | h0 => intro i c h; simp [forestGet] at h
  | h1 k ks ih =>
    intro i c h hnd
    simp only [identsF] at hnd
    cases i with
    | zero =>
      simp only [forestGet] at h
      injection h with h
      subst h
      exact hnd.of_append_left
    | succ i =>
      simp only [forestGet] at h
      exact ih i c h hnd.of_append_right

/-- Two distinct children own disjoint identifier sets when the sibling
forest's identifier list is distinct. -/
theorem disjoint_kids_idents (ks : PForest) :
    ∀ i j a b, i ≠ j → forestGet ks i = some a → forestGet ks j = some b →
      (identsF ks).Nodup → ∀ x, x ∈ idents a → x ∈ idents b → False := by
  induction ks using PForest.inductionOn with
  | h0 => intro i j a b hij ha; simp [forestGet] at ha
  | h1 k ks ih =>
    intro i j a b hij ha hb hnd x hxa hxb
    simp only [identsF] at hnd
    rw [List.nodup_append] at hnd
    obtain ⟨hnk, hnks, hdisj⟩ := hnd
    cases i with
    | zero =>
      simp only [forestGet] at ha
      injection ha with ha
      subst ha
      cases j with
      | zero => exact hij rfl
      | succ j =>
        simp only [forestGet] at hb
        exact hdisj hxa (mem_identsF_of_forestGet ks j b hb x hxb)
    | succ i =>
      simp only [forestGet] at ha
      cases j with
      | zero =>
        simp only [forestGet] at hb
        injection hb with hb
        subst hb
        exact hdisj hxb (mem_identsF_of_forestGet ks i a ha x hxa)
      | succ j =>
        simp only [forestGet] at hb
        exact ih i j a b (by omega) ha hb hnks x hxa hxb

/-- With distinct identifiers (the stand-in for distinct Python objects), a
node value occurs at exactly one position of the tree. -/
theorem posGet_unique :
    ∀ (p q : List Nat) (t m : PNode), (idents t).Nodup →
      posGet t p = some m → posGet t q = some m → p = q := by
  intro p
  induction p with
  | nil =>
    intro q t m hnd hp hq
    simp only [posGet] at hp
    injection hp with hp
    subst hp
    cases q with
    | nil => rfl
    | cons j q2 => exact absurd hq (fun hc => no_self_descendant t j q2 hnd hc)
  | cons i p ih =>
    intro q t m hnd hp hq
    cases q with
    | nil =>
      simp only [posGet] at hq
      injection hq with hq
      subst hq
      exact absurd hp (fun hc => no_self_descendant t i p hnd hc)
    | cons j q2 =>
      obtain ⟨id, ks⟩ := t
      simp only [idents, List.nodup_cons] at hnd
      have hndF : (identsF ks).Nodup := hnd.2
      simp only [posGet, PNode.kids] at hp hq
      cases hgi : forestGet ks i with
      | none => rw [hgi] at hp; simp at hp
      | some a =>
        rw [hgi] at hp
        cases hgj : forestGet ks j with
        | none => rw [hgj] at hq; simp at hq
        | some b =>
          rw [hgj] at hq
          by_cases hij : i = j
          · subst hij
            rw [hgi] at hgj
            injection hgj with hab
            subst hab
            have := ih q2 a m (nodup_idents_of_forestGet ks i a hgi hndF) hp hq
            rw [this]
          · exact absurd (mem_idents_of_posGet q2 b m hq)
              (fun hmb => disjoint_kids_idents ks i j a b hij hgi hgj hndF m.ident
                (mem_idents_of_posGet p a m hp) hmb)

/-- Core of the pruning claim: nothing in the subtree of a rejected node is
kept-reachable from the call root. -/
theorem not_reach_of_pruned (t : PNode) (keep : PNode → NodeItem → Bool)
    (p : List Nat) (n : PNode) (i0 : Nat)
    (hnd : (idents t).Nodup) (hp : p ≠ []) (hpos : posGet t p = some n)
    (hlast : p.getLast? = some i0) (hkeep : keep n ⟨i0, p.length⟩ = false)
    (m : PNode) (im : NodeItem) (r : List Nat) (hr : posGet n r = some m) :
    ¬ Reach keep t 1 m im := by
  intro hreach
  obtain ⟨q, hqne, hqpos, hqkept, hqlast, hqdep⟩ := reach_path keep t 1 m im hreach
  have hpr : posGet t (p ++ r) = some m := by
    rw [posGet_append, hpos]
    simpa using hr
  have hq : q = p ++ r := posGet_unique q (p ++ r) t m hnd hqpos hpr
  subst hq
  have hkp : KeptAlong keep t 1 p := keptAlong_append keep p r t 1 hqkept
  have hlastkeep := keptAlong_last keep p t 1 n i0 hp hkp hpos hlast
  have harith : 1 + p.length - 1 = p.length := by omega
  rw [harith] at hlastkeep
  rw [hlastkeep] at hkeep
  exact absurd hkeep (by simp)

/-- C9: for every traversal order in pre/post/level and every keep
predicate, if `keep` rejects a node `n` (sitting at position `p`, with the
item the traversal assigns there), then neither `n` nor any node of its
subtree appears anywhere in the output of `iter_descendants` or
`iter_tree`.  Distinctness of the identifier list stands for the
distinctness of Python's node objects. -/
theorem pruned_subtree_absent (t : PNode) (keep : PNode → NodeItem → Bool) (ord : TOrder)
    (p : List Nat) (n : PNode) (i0 : Nat)
    (hnd : (idents t).Nodup) (hp : p ≠ []) (hpos : posGet t p = some n)
    (hlast : p.getLast? = some i0) (hkeep : keep n ⟨i0, p.length⟩ = false)
    (m : PNode) (im : NodeItem) (r : List Nat) (hr : posGet n r = some m) :
    ((m, im) ∉ iterDescO ord t keep ∧ (m, im) ∉ iterTreeO ord t keep) ∧
      (keep t ⟨0, 0⟩ = false → iterTreeO ord t keep = []) := by
  refine ⟨?_, fun hkr => by simp [iterTreeO, hkr]⟩
  have hnotreach := not_reach_of_pruned t keep p n i0 hnd hp hpos hlast hkeep m im r hr
  have hdesc : (m, im) ∉ iterDescO ord t keep := fun hmem =>
    hnotreach (mem_iterDesc_reach ord t keep m im hmem)
  refine ⟨hdesc, ?_⟩
  intro hmem
  have hroot : ¬ (m = t ∧ im = (⟨0, 0⟩ : NodeItem)) := by
    rintro ⟨hm, _⟩
    have hpm : posGet t (p ++ r) = some m := by
      rw [posGet_append, hpos]
      simpa using hr
    have hempty : posGet t ([] : List Nat) = some m := by simp [posGet, hm]
    have hq := posGet_unique (p ++ r) [] t m hnd hpm hempty
    rcases p with _ | ⟨a, p2⟩
    · exact hp rfl
    · simp at hq
  simp only [iterTreeO] at hmem
  by_cases hkr : keep t ⟨0, 0⟩
  · rw [if_pos hkr] at hmem
    cases ord with
    | pre =>
      rcases List.mem_cons.1 hmem with heq | hin
      · exact hroot (Prod.mk.inj heq)
      · exact hdesc hin
    | level =>
      rcases List.mem_cons.1 hmem with heq | hin
      · exact hroot (Prod.mk.inj heq)
      · exact hdesc hin
    | post =>
      rcases List.mem_append.1 hmem with hin | heq
      · exact hdesc hin
      · simp only [List.mem_singleton] at heq
        exact hroot (Prod.mk.inj heq)
  · rw [if_neg hkr] at hmem
    simp at hmem

/-- Witness for C9 on the chain `a → b → c` with a keep predicate rejecting
`b` (order: preorder): `c` (with its traversal item) appears in neither
`iter_descendants` nor `iter_tree`. -/
theorem pruned_subtree_absent_witness :
    ((idents wtA).Nodup ∧ ([0] : List Nat) ≠ [] ∧ posGet wtA [0] = some wtB ∧
     ([0] : List Nat).getLast? = some 0 ∧ keepNotB wtB ⟨0, 1⟩ = false ∧
     posGet wtB [0] = some wtC) ∧
    (((wtC, (⟨0, 2⟩ : NodeItem)) ∉ iterDescO .pre wtA keepNotB ∧
      (wtC, (⟨0, 2⟩ : NodeItem)) ∉ iterTreeO .pre wtA keepNotB) ∧
     (keepNotB wtA ⟨0, 0⟩ = false → iterTreeO .pre wtA keepNotB = [])) :=
  ⟨⟨by decide, by decide, by decide, by decide, by decide, by decide⟩,
   pruned_subtree_absent wtA keepNotB .pre [0] wtB 0 (by decide) (by decide)
     (by decide) (by decide) (by decide) wtC ⟨0, 2⟩ [0] (by decide)⟩


/-! ### Traversal completeness of the fuel wrappers

With a keep predicate that accepts everything, the deque machines emit one
pair per queued node, confirming that the wrappers' fuel
(`sizeF t.kids`) covers the whole traversal. -/

theorem sizeItems_append (l1 l2 : List (PNode × NodeItem)) :
    sizeItems (l1 ++ l2) = sizeItems l1 + sizeItems l2 := by
  induction l1 with
  | nil => simp [sizeItems]
  | cons e l ih =>
    simp only [List.cons_append, sizeItems, List.append_eq]
    omega

theorem preListF_length_total :
    ∀ fuel l, sizeItems l ≤ fuel →
      (preListF (fun _ _ => true) fuel l).length = sizeItems l := by
  intro fuel
  induction fuel with
  | zero =>
    intro l hsz
    cases l with
    | nil => simp [preListF, sizeItems]
    | cons e rest =>
      rcases e with ⟨n, i⟩
      have := sizeP_pos n
      simp only [sizeItems] at hsz
      omega
  | succ fuel ih =>
    intro l hsz
    cases l with
    | nil => simp [preListF, sizeItems]
    | cons e rest =>
      rcases e with ⟨n, i⟩
      have hknd : sizeItems (enumItems 0 (i.depth + 1) n.kids) = sizeP n - 1 := by
        rw [sizeItems_enumItems]
        rcases n with ⟨id, ks⟩
        simp [PNode.kids, sizeP]
      have hp := sizeP_pos n
      simp only [sizeItems] at hsz
      have hsz2 : sizeItems (enumItems 0 (i.depth + 1) n.kids ++ rest) ≤ fuel := by
        rw [sizeItems_append, hknd]
        omega
      simp only [preListF, if_true]
      simp only [List.length_cons, sizeItems]
      rw [ih _ hsz2, sizeItems_append, hknd]
      omega

theorem levelListF_length_total :
    ∀ fuel l, sizeItems l ≤ fuel →
      (levelListF (fun _ _ => true) fuel l).length = sizeItems l := by
  intro fuel
  induction fuel with
  | zero =>
    intro l hsz
    cases l with
    | nil => simp [levelListF, sizeItems]
    | cons e rest =>
      rcases e with ⟨n, i⟩
      have := sizeP_pos n
      simp only [sizeItems] at hsz
      omega
  | succ fuel ih =>
    intro l hsz
    cases l with
    | nil => simp [levelListF, sizeItems]
    | cons e rest =>
      rcases e with ⟨n, i⟩
      have hknd : sizeItems (enumItems 0 (i.depth + 1) n.kids) = sizeP n - 1 := by
        rw [sizeItems_enumItems]
        rcases n with ⟨id, ks⟩
        simp [PNode.kids, sizeP]
      have hp := sizeP_pos n
      simp only [sizeItems] at hsz
      have hsz2 : sizeItems (rest ++ enumItems 0 (i.depth + 1) n.kids) ≤ fuel := by
        rw [sizeItems_append, hknd]
        omega
      simp only [levelListF, if_true]
      simp only [List.length_cons, sizeItems]
      rw [ih _ hsz2, sizeItems_append, hknd]
      omega

/-- Unpruned `iter_descendants` (pre and level) emits exactly one pair per
descendant, so the wrappers' fuel suffices for the whole tree. -/
theorem iterDesc_complete (t : PNode) :
    (itDescPre t (fun _ _ => true)).length = sizeF t.kids ∧
    (itDescLevel t (fun _ _ => true)).length = sizeF t.kids := by
  constructor
  · rw [itDescPre, preListF_length_total _ _ (by rw [sizeItems_enumItems]),
      sizeItems_enumItems]
  · rw [itDescLevel, levelListF_length_total _ _ (by rw [sizeItems_enumItems]),
      sizeItems_enumItems]

end LT
